import Mathlib

/-!
Verification of the LWMD streaming markdown parser (src/lwmd.js).

The JavaScript source is shallowly embedded here:

* Text is a list of character codes (`List Nat`), mirroring `charCodeAt`.
* The mutable instance fields of class `LWMD` become the structures
  `MachineState` (the `this.state` object), `Core` (the cursor / stack
  fields) and `Inst` (adding the chunk store and options).
* DOM mutations become an explicit command trace (`Cmd`): `top.append(string)`
  is `Cmd.appendText`, `up(wrapper)` emits `Cmd.openBlock`, a popping `down()`
  emits `Cmd.closeBlock`, and appending the `hr` element is `Cmd.insertHr`.
  Every stateful method is written writer-style, returning the updated state
  together with the list of commands it issued, in issue order.
* The chunk store is read only through `getSubstring`, so the character step
  `processCharG` is parametrized by a read function; the real machine
  instantiates it with `getSubstring chunks`.
-/

namespace LWMD

/-! ## Character codes (LWMD_ENUM.CHAR) -/

def SPACE : Nat := 32
def NEWLINE : Nat := 10
def ASTERISK : Nat := 42
def UNDERSCORE : Nat := 95
def TILDE : Nat := 126
def HASH : Nat := 35
def DASH : Nat := 45
def BACKTICK : Nat := 96

/-! ## Parser states (LWMD_ENUM.STATE) -/

inductive PState where
  | NORMAL
  | SEQUENCE_HEADING
  | SEQUENCE_HR
  | SEQUENCE_MODIFIER
  | CODE
  | CODE_BLOCK
deriving DecidableEq, Repr

/-! ## Output commands

The output sink commands, in the order the parser issues them.  `appendText`
is `this.top.append(string)`; `openBlock` is `up(wrapper)` appending and
pushing a new container; `closeBlock` is the stack pop performed by `down()`
(the insertion point returns to the parent); `insertHr` is
`this.top.append(document.createElement("hr"))`. -/

inductive Cmd where
  | appendText (s : List Nat)
  | openBlock (tag : String)
  | closeBlock
  | insertHr
deriving DecidableEq, Repr

/-- One entry of `this.state.modifierStack`: a JS array `[char, count]` whose
index 2 is optionally assigned a position on modifier abort. -/
structure ModEntry where
  char : Nat
  count : Nat
  endPos : Option Nat
deriving DecidableEq, Repr

/-- The `this.state` object of the source. -/
structure MachineState where
  locked : Bool
  state : PState
  line_start : Bool
  heading_count : Nat
  hr_char : Option Nat
  hr_count : Nat
  /-- The modifier stack, stored top-first: the source pushes to the end of a
  JS array and reads `stack[stack.length - 1]`; we cons to the head and read
  the head. -/
  modifierStack : List ModEntry
deriving DecidableEq, Repr

/-- The cursor and element-stack fields of the `LWMD` instance.  `stack` holds
the open-element tags bottom-first; the initial `target` element is the tag
`"root"`.  `this.top` is always the last element of `stack`. -/
structure Core where
  position : Nat
  start : Nat
  uncorfinmed_start : Option Nat
  stack : List String
  state : MachineState
deriving DecidableEq, Repr

structure Options where
  flush_on_write : Bool
deriving DecidableEq, Repr

/-- The full instance: chunk store plus core. -/
structure Inst where
  chunks : List (List Nat)
  options : Options
  core : Core
deriving DecidableEq, Repr

/-! ## Chunk store (`getSubstring`) -/

/-- JS `String.prototype.slice` restricted to non-negative arguments:
`s.slice(a, b)` keeps the characters with index in `[a, b)`, clamping to the
string length and yielding the empty string when `a >= b`. -/
def jsSlice (l : List Nat) (a b : Nat) : List Nat :=
  (l.take b).drop a

/-- JS `String.prototype.slice` with full integer semantics: a negative
argument counts from the end of the string. -/
def jsSliceInt (l : List Nat) (a b : Int) : List Nat :=
  let len : Int := l.length
  let s : Int := if a < 0 then max (len + a) 0 else min a len
  let e : Int := if b < 0 then max (len + b) 0 else min b len
  (l.take e.toNat).drop s.toNat

/-- The first loop of `getSubstring`: scan chunks tracking the running offset
`idx`; return the chunk itself when the range matches its bounds exactly, a
slice when the range lies fully inside it, and `none` when the scan falls
through to the general case. -/
def fastScan : List (List Nat) → Nat → Nat → Nat → Option (List Nat)
  | [], _, _, _ => none
  | c :: rest, idx, s, e =>
    if idx = s ∧ idx + c.length = e then some c
    else if s ≥ idx ∧ e ≤ idx + c.length then
      some (jsSliceInt c ((s : Int) - (idx : Int)) ((e : Int) - (idx : Int)))
    else fastScan rest (idx + c.length) s e

/-- The general-case loop of `getSubstring`: collect the overlapping slice of
each chunk in order; `pos` is the running offset.  The source computes
`chunkStart = max(0, start - pos)` and `chunkEnd = min(len, end - pos)`
(truncated subtraction on `Nat` matches both: a negative `end - pos` fails
the `chunkStart < chunkEnd` test exactly when the truncated value `0` does),
and breaks out of the loop once `pos >= end`. -/
def genCollect : List (List Nat) → Nat → Nat → Nat → List Nat
  | [], _, _, _ => []
  | c :: rest, pos, s, e =>
    let chunkStart := s - pos
    let chunkEnd := min c.length (e - pos)
    (if chunkStart < chunkEnd then jsSlice c chunkStart chunkEnd else []) ++
      (if pos + c.length ≥ e then [] else genCollect rest (pos + c.length) s e)

/-- `getSubstring(start, end)` of the source: single-chunk fast path, then the
exact-bounds / fully-inside fast paths, then the general collection loop
(whose `start < end` loop condition is hoisted out, being loop-invariant). -/
def getSubstring (chunks : List (List Nat)) (s e : Nat) : List Nat :=
  match chunks with
  | [c] => jsSlice c s e
  | cs =>
    match fastScan cs 0 s e with
    | some r => r
    | none => if s < e then genCollect cs 0 s e else []

/-! ## Primitive operations -/

def isModifierChar (char : Nat) : Bool :=
  char = ASTERISK ∨ char = UNDERSCORE ∨ char = TILDE

/-- JS numeric coercion used by `++`/`+= k` on `uncorfinmed_start`: `null`
coerces to `0`. -/
def optAdd (o : Option Nat) (k : Nat) : Option Nat :=
  some (o.getD 0 + k)

/-- The heading wrapper tag passed to `up`. -/
def hTag (n : Nat) : String :=
  "h" ++ toString n

/-- `flush(start, end)` parametrized by the chunk-store read function: no-op
reporting `false` when locked or when the read span is empty; otherwise
append the span as text to the current top, advance `start` to the current
position and null `uncorfinmed_start`. -/
def flushG (read : Nat → Nat → List Nat) (m : Core) (s e : Nat) :
    Core × List Cmd × Bool :=
  if m.state.locked then (m, [], false)
  else if (read s e).length = 0 then (m, [], false)
  else
    ({ m with start := m.position, uncorfinmed_start := none },
      [Cmd.appendText (read s e)], true)

/-- `flush()` with its default arguments `(this.start, this.position)`. -/
def flushD (read : Nat → Nat → List Nat) (m : Core) : Core × List Cmd × Bool :=
  flushG read m m.start m.position

/-- `up(wrapper)`: append the wrapper to the top, push it, make it the top. -/
def up (m : Core) (wrapper : String) : Core × List Cmd :=
  ({ m with stack := m.stack ++ [wrapper] }, [Cmd.openBlock wrapper])

/-- `down()`: pop the element stack only when more than one element is
present; the insertion point returns to the new last element. -/
def down (m : Core) : Core × List Cmd :=
  if m.stack.length > 1 then ({ m with stack := m.stack.dropLast }, [Cmd.closeBlock])
  else (m, [])

/-- Assignment `modifierStack[modifierStack.length - 1][2] = position` (with
the stack stored top-first).  On an empty stack the source would throw; the
stack is never empty in `SEQUENCE_MODIFIER` state, so the branch is inert. -/
def setLastEndPos : List ModEntry → Nat → List ModEntry
  | [], _ => []
  | e :: r, pos => { e with endPos := some pos } :: r

/-! ## The character step (body of the `while` loop in `write`) -/

/-- The `switch(this.state.state)` dispatch of the character loop. -/
def stepSwitch (read : Nat → Nat → List Nat) (m : Core) (char : Nat) :
    Core × List Cmd :=
  match m.state.state with
    | PState.NORMAL =>
      if m.state.line_start then
        if char = HASH then
          let f := flushD read m
          ({ f.1 with
              state := { f.1.state with
                locked := true, state := PState.SEQUENCE_HEADING, heading_count := 1 },
              uncorfinmed_start := some f.1.position }, f.2.1)
        else if char = UNDERSCORE ∨ char = ASTERISK ∨ char = DASH then
          let f := flushD read m
          ({ f.1 with
              state := { f.1.state with
                locked := true, state := PState.SEQUENCE_HR,
                hr_char := some char, hr_count := 1 },
              uncorfinmed_start := some f.1.position }, f.2.1)
        else (m, [])
      else if isModifierChar char then
        let f := flushD read m
        ({ f.1 with
            state := { f.1.state with
              state := PState.SEQUENCE_MODIFIER,
              modifierStack := ModEntry.mk char 1 none :: f.1.state.modifierStack },
            uncorfinmed_start := some (f.1.position + 1) }, f.2.1)
      else if char = BACKTICK then
        let f := flushD read m
        ({ f.1 with
            state := { f.1.state with state := PState.CODE },
            uncorfinmed_start := some (f.1.position + 1) }, f.2.1)
      else (m, [])
    | PState.SEQUENCE_HR =>
      if some char = m.state.hr_char ∨ char = SPACE then
        ({ m with state := { m.state with hr_count := m.state.hr_count + 1 } }, [])
      else
        let m1 := { m with state := { m.state with state := PState.NORMAL, locked := false } }
        let r : Core × List Cmd :=
          if m1.state.hr_count > 2 ∧ char = NEWLINE then
            ({ m1 with start := m1.position }, [Cmd.insertHr])
          else
            match m1.state.hr_char with
            | some h =>
              if isModifierChar h then
                let f := flushD read m1
                ({ f.1 with
                    state := { f.1.state with
                      state := PState.SEQUENCE_MODIFIER,
                      modifierStack :=
                        ModEntry.mk h f.1.state.hr_count none :: f.1.state.modifierStack },
                    uncorfinmed_start := some (f.1.position + 1) }, f.2.1)
              else (m1, [])
            | none => (m1, [])
        ({ r.1 with state := { r.1.state with hr_char := none, hr_count := 0 } }, r.2)
    | PState.SEQUENCE_HEADING =>
      if char = HASH then
        ({ m with
            state := { m.state with heading_count := m.state.heading_count + 1 },
            uncorfinmed_start := optAdd m.uncorfinmed_start 1 }, [])
      else
        let m1 := { m with state := { m.state with state := PState.NORMAL, locked := false } }
        if char = SPACE ∨ char = NEWLINE then
          let m2 := { m1 with uncorfinmed_start := optAdd m1.uncorfinmed_start 2 }
          let u := up m2 (hTag (min 6 m2.state.heading_count))
          ({ u.1 with start := m2.uncorfinmed_start.getD 0, uncorfinmed_start := none }, u.2)
        else
          ({ m1 with
              state := { m1.state with heading_count := 0 },
              uncorfinmed_start := none }, [])
    | PState.SEQUENCE_MODIFIER =>
      if isModifierChar char then
        match m.state.modifierStack with
        | [] => (m, [])
        | last :: rest =>
          let newStack :=
            if last.count = 1 ∧ char = last.char then
              { last with count := last.count + 1 } :: rest
            else
              ModEntry.mk char 1 none :: last :: rest
          -- The subsequent equal-run match check in the source has an empty
          -- body ("We have a match"), so it changes no state and is omitted.
          ({ m with
              uncorfinmed_start := optAdd m.uncorfinmed_start 1,
              state := { m.state with modifierStack := newStack } }, [])
      else
        ({ m with
            state := { m.state with
              state := PState.NORMAL, locked := false,
              modifierStack := setLastEndPos m.state.modifierStack m.position } }, [])
    | PState.CODE => (m, [])
    | PState.CODE_BLOCK => (m, [])

/-- The end-of-iteration handling: on a newline set `line_start`, clear the
modifier stack and close a currently open heading; otherwise clear a stale
`line_start`. -/
def stepAfter (read : Nat → Nat → List Nat) (m : Core) (char : Nat) :
    Core × List Cmd :=
  if char = NEWLINE then
    let m := { m with state := { m.state with line_start := true, modifierStack := [] } }
    if m.state.heading_count > 0 then
      let f := flushD read m
      let d := down f.1
      ({ d.1 with state := { d.1.state with heading_count := 0 } }, f.2.1 ++ d.2)
    else (m, [])
  else if m.state.line_start then
    ({ m with state := { m.state with line_start := false } }, [])
  else (m, [])

/-- One full iteration of the character loop of `write`: the state switch,
the newline handling, and the position increment. -/
def processCharG (read : Nat → Nat → List Nat) (m : Core) (char : Nat) :
    Core × List Cmd :=
  let s1 := stepSwitch read m char
  let s2 := stepAfter read s1.1 char
  ({ s2.1 with position := s2.1.position + 1 }, s1.2 ++ s2.2)

/-- Process the characters of one chunk in order, accumulating commands. -/
def runChunk (read : Nat → Nat → List Nat) : Core → List Nat → Core × List Cmd
  | m, [] => (m, [])
  | m, c :: cs =>
    let s := processCharG read m c
    let r := runChunk read s.1 cs
    (r.1, s.2 ++ r.2)

/-! ## Instance-level operations -/

/-- The state established by `clearState()` (with the element stack reset to
just the target). -/
def initCore : Core :=
  { position := 0, start := 0, uncorfinmed_start := some 0, stack := ["root"],
    state :=
      { locked := false, state := PState.NORMAL, line_start := true,
        heading_count := 0, hr_char := none, hr_count := 0, modifierStack := [] } }

/-- A freshly constructed instance with the default options. -/
def initInst : Inst :=
  { chunks := [], options := { flush_on_write := true }, core := initCore }

/-- `write(chunk)`: push the chunk, process its characters, and, when
`flush_on_write` is enabled, attempt one flush. -/
def write (m : Inst) (chunk : List Nat) : Inst × List Cmd :=
  let chunks := m.chunks ++ [chunk]
  let read := getSubstring chunks
  let r := runChunk read m.core chunk
  if m.options.flush_on_write then
    let f := flushD read r.1
    ({ m with chunks := chunks, core := f.1 }, r.2 ++ f.2.1)
  else
    ({ m with chunks := chunks, core := r.1 }, r.2)

/-- The public `flush(start, end)` method on an instance. -/
def flushI (m : Inst) (s e : Nat) : Inst × List Cmd × Bool :=
  let f := flushG (getSubstring m.chunks) m.core s e
  ({ m with core := f.1 }, f.2.1, f.2.2)

/-- `end()`: when locked, force-unlock and flush from `uncorfinmed_start`
(`null` coercing to `0`) to the position; then `clearState()` (which also
discards the chunk store). -/
def endStream (m : Inst) : Inst × List Cmd :=
  let read := getSubstring m.chunks
  let o1 : List Cmd :=
    if m.core.state.locked then
      let c0 := { m.core with state := { m.core.state with locked := false } }
      (flushG read c0 (c0.uncorfinmed_start.getD 0) c0.position).2.1
    else []
  ({ m with chunks := [], core := initCore, options := m.options }, o1)

/-- Feed a list of fragments to `write` in order. -/
def runW : Inst → List (List Nat) → Inst × List Cmd
  | m, [] => (m, [])
  | m, p :: ps =>
    let w := write m p
    let r := runW w.1 ps
    (r.1, w.2 ++ r.2)

/-- The full command trace of streaming the fragments and ending the
stream. -/
def runDoc (parts : List (List Nat)) : List Cmd :=
  let r := runW initInst parts
  r.2 ++ (endStream r.1).2

/-! ## Basic lemmas about the primitive operations -/

theorem flushG_fst_state (read : Nat → Nat → List Nat) (m : Core) (s e : Nat) :
    (flushG read m s e).1.state = m.state := by
  unfold flushG
  split
  · rfl
  · split <;> rfl

theorem flushG_fst_stack (read : Nat → Nat → List Nat) (m : Core) (s e : Nat) :
    (flushG read m s e).1.stack = m.stack := by
  unfold flushG
  split
  · rfl
  · split <;> rfl

theorem flushG_fst_position (read : Nat → Nat → List Nat) (m : Core) (s e : Nat) :
    (flushG read m s e).1.position = m.position := by
  unfold flushG
  split
  · rfl
  · split <;> rfl

theorem flushG_of_locked (read : Nat → Nat → List Nat) (m : Core) (s e : Nat)
    (h : m.state.locked = true) : flushG read m s e = (m, [], false) := by
  unfold flushG
  rw [if_pos h]

theorem flushG_of_empty (read : Nat → Nat → List Nat) (m : Core) (s e : Nat)
    (h : read s e = []) : flushG read m s e = (m, [], false) := by
  unfold flushG
  split
  · rfl
  · rw [if_pos (by simp [h])]

theorem flushG_of_fire (read : Nat → Nat → List Nat) (m : Core) (s e : Nat)
    (hl : m.state.locked = false) (h : read s e ≠ []) :
    flushG read m s e =
      ({ m with start := m.position, uncorfinmed_start := none },
        [Cmd.appendText (read s e)], true) := by
  unfold flushG
  rw [if_neg (by simp [hl]), if_neg (by simp [h])]

theorem down_fst_state (m : Core) : (down m).1.state = m.state := by
  unfold down
  split <;> rfl

theorem down_fst_position (m : Core) : (down m).1.position = m.position := by
  unfold down
  split <;> rfl

theorem down_fst_start (m : Core) : (down m).1.start = m.start := by
  unfold down
  split <;> rfl

theorem down_stack_ne_nil (m : Core) (h : m.stack ≠ []) : (down m).1.stack ≠ [] := by
  unfold down
  split
  · rename_i hlen
    have hd : m.stack.dropLast.length = m.stack.length - 1 := m.stack.length_dropLast
    intro hnil
    simp only at hnil
    rw [hnil] at hd
    simp at hd
    omega
  · exact h

theorem flushD_fst_state (read : Nat → Nat → List Nat) (m : Core) :
    (flushD read m).1.state = m.state :=
  flushG_fst_state read m m.start m.position

theorem flushD_fst_stack (read : Nat → Nat → List Nat) (m : Core) :
    (flushD read m).1.stack = m.stack :=
  flushG_fst_stack read m m.start m.position

theorem flushD_fst_position (read : Nat → Nat → List Nat) (m : Core) :
    (flushD read m).1.position = m.position :=
  flushG_fst_position read m m.start m.position

theorem stepAfter_newline_state (read : Nat → Nat → List Nat) (m : Core) :
    (stepAfter read m NEWLINE).1.state.modifierStack = [] ∧
      (stepAfter read m NEWLINE).1.state.line_start = true := by
  constructor <;>
  · unfold stepAfter
    rw [if_pos rfl]
    dsimp only
    split
    · rw [down_fst_state, flushD_fst_state]
    · rfl

theorem stepAfter_of_not_newline (read : Nat → Nat → List Nat) (m : Core) (char : Nat)
    (h : char ≠ NEWLINE) :
    stepAfter read m char =
      if m.state.line_start then
        ({ m with state := { m.state with line_start := false } }, [])
      else (m, []) := by
  unfold stepAfter
  rw [if_neg h]

/-- C8: After processing a newline character, in any parser state, the
modifier stack is empty and the `line_start` flag is set, so unresolved
emphasis runs never survive a line boundary and the modifier stack is empty
at the start of every line. -/
theorem c8_newline_clears_modifier_stack (read : Nat → Nat → List Nat) (m : Core) :
    (processCharG read m NEWLINE).1.state.modifierStack = [] ∧
      (processCharG read m NEWLINE).1.state.line_start = true := by
  have h := stepAfter_newline_state read (stepSwitch read m NEWLINE).1
  unfold processCharG
  exact h

/-- C9 (counterexample): after writing the fragment `"hi"` the position is 2;
the call `flush(0, 1)` then fires (it reports `true`) but leaves the confirmed
cursor at 2 — the current position — not at the `to` argument 1, refuting the
claim that `flush(from, to)` advances the confirmed cursor to `to`. -/
theorem c9_counterexample :
    (flushI (runW initInst [[104, 105]]).1 0 1).2.2 = true ∧
      (flushI (runW initInst [[104, 105]]).1 0 1).1.core.start = 2 ∧ (2 : Nat) ≠ 1 := by
  decide

/-- C9 (amended): `flush(from, to)` is a no-op reporting `false` when the
lock flag is set or the span read from the chunk store is empty, leaving the
whole instance unchanged; otherwise it appends exactly the span `from..to`
read from the chunk store as text to the current top, advances the confirmed
cursor to the current logical position (which equals `to` for every call the
parser itself makes, but not for arbitrary calls), nulls the unconfirmed
cursor, leaves everything else unchanged, and reports `true`. -/
theorem c9_flush_contract (m : Inst) (s e : Nat) :
    (m.core.state.locked = true → flushI m s e = (m, [], false)) ∧
    (getSubstring m.chunks s e = [] → flushI m s e = (m, [], false)) ∧
    (m.core.state.locked = false → getSubstring m.chunks s e ≠ [] →
      flushI m s e =
        ({ m with core :=
            { m.core with start := m.core.position, uncorfinmed_start := none } },
          [Cmd.appendText (getSubstring m.chunks s e)], true)) := by
  refine ⟨fun hl => ?_, fun he => ?_, fun hl hne => ?_⟩
  · unfold flushI
    rw [flushG_of_locked _ _ _ _ hl]
  · unfold flushI
    rw [flushG_of_empty _ _ _ _ he]
  · unfold flushI
    rw [flushG_of_fire _ _ _ _ hl hne]

/-- C9 (witness): instantiating the flush contract at the instance obtained
by writing `"hi"` and at the call `flush(0, 1)`. -/
theorem c9_flush_contract_witness :
    flushI (runW initInst [[104, 105]]).1 0 1 =
      ({ (runW initInst [[104, 105]]).1 with core :=
          { (runW initInst [[104, 105]]).1.core with
              start := (runW initInst [[104, 105]]).1.core.position,
              uncorfinmed_start := none } },
        [Cmd.appendText (getSubstring (runW initInst [[104, 105]]).1.chunks 0 1)], true) :=
  (c9_flush_contract (runW initInst [[104, 105]]).1 0 1).2.2 (by decide) (by decide)

/-- C4 (code evaluated at the failing input): the input `"x**a**y"` contains
an opening run `**` and a matching closing run `**` on one line, yet the
full command trace contains only text appends — no structural command is ever
issued for the matched span, because the match branch of the source is empty. -/
theorem c4_matched_modifiers_emit_no_command :
    runDoc [[120, 42, 42, 97, 42, 42, 121]] =
      [Cmd.appendText [120], Cmd.appendText [42, 42, 97],
        Cmd.appendText [42, 42, 121]] := by
  decide

/-- C5 (code evaluated at the failing input): in `"a`b`c"` the parser enters
the inline-code state at the first backtick and is still in it after the
closing backtick and after the following character — the `CODE` state has no
case in the state switch, so the span is never confirmed or closed and the
parser never returns to the normal state; the content is emitted as plain
text by the write-boundary flush. -/
theorem c5_inline_code_never_closes :
    (runW initInst [[97, 96, 98, 96]]).1.core.state.state = PState.CODE ∧
      (runW initInst [[97, 96, 98, 96, 99]]).1.core.state.state = PState.CODE ∧
      runDoc [[97, 96, 98, 96, 99]] =
        [Cmd.appendText [97], Cmd.appendText [96, 98, 96, 99]] := by
  decide

/-- C7 (code evaluated at the failing input): writing `"##"` and ending the
stream appends the text `"#"` — not `"##"` — because `end()` flushes from
`uncorfinmed_start`, which the heading recognizer has advanced past the first
marker. -/
theorem c7_end_flushes_shorter_span :
    runDoc [[35, 35]] = [Cmd.appendText [35]] := by
  decide

/-- C6 (counterexample): in `"#*"` the asterisk aborts the heading run, but it
is not reprocessed by the Normal state: afterwards the parser is in the
`NORMAL` state with an empty modifier stack — no modifier run was started by
the emphasis-capable aborting character, refuting the reprocessing claim. -/
theorem c6_counterexample :
    (runW initInst [[35, 42]]).1.core.state.state = PState.NORMAL ∧
      (runW initInst [[35, 42]]).1.core.state.modifierStack = [] := by
  decide

/-! ## Branch characterizations of the state switch -/

theorem stepSwitch_heading_continue (read : Nat → Nat → List Nat) (m : Core)
    (h : m.state.state = PState.SEQUENCE_HEADING) :
    stepSwitch read m HASH =
      ({ m with
          state := { m.state with heading_count := m.state.heading_count + 1 },
          uncorfinmed_start := optAdd m.uncorfinmed_start 1 }, []) := by
  simp only [stepSwitch, h]
  simp

theorem stepSwitch_heading_confirm (read : Nat → Nat → List Nat) (m : Core) (char : Nat)
    (h : m.state.state = PState.SEQUENCE_HEADING) (hne : char ≠ HASH)
    (hsn : char = SPACE ∨ char = NEWLINE) :
    stepSwitch read m char =
      ({ m with
          start := m.uncorfinmed_start.getD 0 + 2,
          uncorfinmed_start := none,
          stack := m.stack ++ [hTag (min 6 m.state.heading_count)],
          state := { m.state with state := PState.NORMAL, locked := false } },
        [Cmd.openBlock (hTag (min 6 m.state.heading_count))]) := by
  simp only [stepSwitch, h]
  rw [if_neg hne, if_pos hsn]
  simp [up, optAdd]

theorem stepSwitch_heading_abort (read : Nat → Nat → List Nat) (m : Core) (char : Nat)
    (h : m.state.state = PState.SEQUENCE_HEADING) (hne : char ≠ HASH)
    (hs : char ≠ SPACE) (hn : char ≠ NEWLINE) :
    stepSwitch read m char =
      ({ m with
          uncorfinmed_start := none,
          state := { m.state with
            state := PState.NORMAL, locked := false, heading_count := 0 } }, []) := by
  simp only [stepSwitch, h]
  rw [if_neg hne, if_neg (by simp [hs, hn])]

theorem stepSwitch_hr_continue (read : Nat → Nat → List Nat) (m : Core) (char : Nat)
    (h : m.state.state = PState.SEQUENCE_HR)
    (hc : some char = m.state.hr_char ∨ char = SPACE) :
    stepSwitch read m char =
      ({ m with state := { m.state with hr_count := m.state.hr_count + 1 } }, []) := by
  simp only [stepSwitch, h]
  rw [if_pos hc]

theorem stepSwitch_hr_confirm (read : Nat → Nat → List Nat) (m : Core) (char : Nat)
    (h : m.state.state = PState.SEQUENCE_HR)
    (hc : ¬(some char = m.state.hr_char ∨ char = SPACE))
    (hfire : m.state.hr_count > 2 ∧ char = NEWLINE) :
    stepSwitch read m char =
      ({ m with
          start := m.position,
          state := { m.state with
            state := PState.NORMAL, locked := false,
            hr_char := none, hr_count := 0 } },
        [Cmd.insertHr]) := by
  simp only [stepSwitch, h]
  rw [if_neg hc]
  rw [if_pos hfire]

theorem stepSwitch_hr_abort_plain (read : Nat → Nat → List Nat) (m : Core) (char h0 : Nat)
    (h : m.state.state = PState.SEQUENCE_HR)
    (hc : ¬(some char = m.state.hr_char ∨ char = SPACE))
    (hchar : m.state.hr_char = some h0) (hmod : isModifierChar h0 = false)
    (hfire : ¬(m.state.hr_count > 2 ∧ char = NEWLINE)) :
    stepSwitch read m char =
      ({ m with
          state := { m.state with
            state := PState.NORMAL, locked := false,
            hr_char := none, hr_count := 0 } }, []) := by
  simp only [stepSwitch, h]
  rw [if_neg hc]
  rw [if_neg hfire, hchar]
  dsimp only
  rw [if_neg (by simp [hmod])]

theorem stepSwitch_hr_abort_modifier (read : Nat → Nat → List Nat) (m : Core) (char h0 : Nat)
    (h : m.state.state = PState.SEQUENCE_HR)
    (hc : ¬(some char = m.state.hr_char ∨ char = SPACE))
    (hchar : m.state.hr_char = some h0) (hmod : isModifierChar h0 = true)
    (hfire : ¬(m.state.hr_count > 2 ∧ char = NEWLINE)) :
    stepSwitch read m char =
      (let f := flushD read
        { m with state := { m.state with state := PState.NORMAL, locked := false } }
       ({ f.1 with
          uncorfinmed_start := some (f.1.position + 1),
          state := { f.1.state with
            state := PState.SEQUENCE_MODIFIER,
            hr_char := none, hr_count := 0,
            modifierStack :=
              ModEntry.mk h0 f.1.state.hr_count none :: f.1.state.modifierStack } },
        f.2.1)) := by
  simp only [stepSwitch, h]
  rw [if_neg hc]
  rw [if_neg hfire, hchar]
  dsimp only
  rw [if_pos hmod]

theorem stepSwitch_modifier_abort (read : Nat → Nat → List Nat) (m : Core) (char : Nat)
    (h : m.state.state = PState.SEQUENCE_MODIFIER) (hmod : isModifierChar char = false) :
    stepSwitch read m char =
      ({ m with
          state := { m.state with
            state := PState.NORMAL, locked := false,
            modifierStack := setLastEndPos m.state.modifierStack m.position } }, []) := by
  simp only [stepSwitch, h]
  rw [if_neg (by simp [hmod])]

theorem stepAfter_not_newline_facts (read : Nat → Nat → List Nat) (m : Core) (char : Nat)
    (h : char ≠ NEWLINE) :
    (stepAfter read m char).1.state.state = m.state.state ∧
      (stepAfter read m char).1.state.heading_count = m.state.heading_count ∧
      (stepAfter read m char).1.state.modifierStack = m.state.modifierStack ∧
      (stepAfter read m char).2 = [] := by
  rw [stepAfter_of_not_newline read m char h]
  split <;> exact ⟨rfl, rfl, rfl, rfl⟩

theorem processCharG_not_newline_facts (read : Nat → Nat → List Nat) (m : Core) (char : Nat)
    (h : char ≠ NEWLINE) :
    (processCharG read m char).1.state.state = (stepSwitch read m char).1.state.state ∧
      (processCharG read m char).1.state.heading_count
        = (stepSwitch read m char).1.state.heading_count ∧
      (processCharG read m char).1.state.modifierStack
        = (stepSwitch read m char).1.state.modifierStack ∧
      (processCharG read m char).2 = (stepSwitch read m char).2 := by
  have hs := stepAfter_not_newline_facts read (stepSwitch read m char).1 char h
  unfold processCharG
  refine ⟨hs.1, hs.2.1, hs.2.2.1, ?_⟩
  show (stepSwitch read m char).2 ++ (stepAfter read (stepSwitch read m char).1 char).2
      = (stepSwitch read m char).2
  rw [hs.2.2.2, List.append_nil]

/-- C6 (amended): when a recognizer aborts, the aborting character is consumed
without being reprocessed by the Normal state: a heading abort returns to
`NORMAL` with the run count reset and starts no new recognizer regardless of
the aborting character (in particular an emphasis-capable marker or a
backtick starts nothing and nothing is emitted); a modifier abort returns to
`NORMAL` even when the aborting character is a backtick; an HR abort on a
non-modifier run character starts nothing; an HR abort on a modifier-capable
run character hands the accumulated run off to the modifier stack, but the
aborting character itself contributes no stack entry and is not otherwise
reprocessed. -/
theorem c6_abort_consumes_character (read : Nat → Nat → List Nat) (m : Core) (char : Nat) :
    (m.state.state = PState.SEQUENCE_HEADING → char ≠ HASH → char ≠ SPACE →
        char ≠ NEWLINE →
      (processCharG read m char).1.state.state = PState.NORMAL ∧
        (processCharG read m char).1.state.heading_count = 0 ∧
        (processCharG read m char).1.state.modifierStack = m.state.modifierStack ∧
        (processCharG read m char).2 = []) ∧
    (m.state.state = PState.SEQUENCE_MODIFIER → isModifierChar char = false →
        char ≠ NEWLINE →
      (processCharG read m char).1.state.state = PState.NORMAL ∧
        (processCharG read m char).2 = []) ∧
    (m.state.state = PState.SEQUENCE_HR → m.state.hr_char = some DASH →
        char ≠ DASH → char ≠ SPACE → char ≠ NEWLINE →
      (processCharG read m char).1.state.state = PState.NORMAL ∧
        (processCharG read m char).1.state.modifierStack = m.state.modifierStack ∧
        (processCharG read m char).2 = []) ∧
    (m.state.state = PState.SEQUENCE_HR → m.state.hr_char = some ASTERISK →
        char ≠ ASTERISK → char ≠ SPACE → char ≠ NEWLINE →
      (processCharG read m char).1.state.state = PState.SEQUENCE_MODIFIER ∧
        (processCharG read m char).1.state.modifierStack =
          ModEntry.mk ASTERISK m.state.hr_count none :: m.state.modifierStack) := by
  refine ⟨fun h hH hS hN => ?_, fun h hmod hN => ?_,
    fun h hchar hC hS hN => ?_, fun h hchar hC hS hN => ?_⟩
  · have hp := processCharG_not_newline_facts read m char hN
    rw [stepSwitch_heading_abort read m char h hH hS hN] at hp
    exact ⟨hp.1, hp.2.1, hp.2.2.1, hp.2.2.2⟩
  · have hp := processCharG_not_newline_facts read m char hN
    rw [stepSwitch_modifier_abort read m char h hmod] at hp
    exact ⟨hp.1, hp.2.2.2⟩
  · have hp := processCharG_not_newline_facts read m char hN
    have hc : ¬(some char = m.state.hr_char ∨ char = SPACE) := by
      rw [hchar]
      simp [hC, hS]
    have hfire : ¬(m.state.hr_count > 2 ∧ char = NEWLINE) := by
      simp [hN]
    rw [stepSwitch_hr_abort_plain read m char DASH h hc hchar (by decide) hfire] at hp
    exact ⟨hp.1, hp.2.2.1, hp.2.2.2⟩
  · have hp := processCharG_not_newline_facts read m char hN
    have hc : ¬(some char = m.state.hr_char ∨ char = SPACE) := by
      rw [hchar]
      simp [hC, hS]
    have hfire : ¬(m.state.hr_count > 2 ∧ char = NEWLINE) := by
      simp [hN]
    rw [stepSwitch_hr_abort_modifier read m char ASTERISK h hc hchar (by decide) hfire] at hp
    refine ⟨hp.1, ?_⟩
    rw [hp.2.2.1]
    dsimp only
    rw [flushD_fst_state]

/-- C6 (witness): instantiating the no-reprocessing theorem at the heading
state reached after writing `"#"`, with a backtick as the aborting
character. -/
theorem c6_abort_consumes_character_witness :
    (processCharG (getSubstring [[35]]) (runW initInst [[35]]).1.core BACKTICK).1.state.state
        = PState.NORMAL ∧
      (processCharG (getSubstring [[35]]) (runW initInst [[35]]).1.core BACKTICK).2 = [] := by
  have h := (c6_abort_consumes_character (getSubstring [[35]])
    (runW initInst [[35]]).1.core BACKTICK).1 (by decide) (by decide) (by decide) (by decide)
  exact ⟨h.1, h.2.2.2⟩

/-! ## Element-stack invariant -/

theorem stepSwitch_stack (read : Nat → Nat → List Nat) (m : Core) (char : Nat) :
    (stepSwitch read m char).1.stack = m.stack ∨
      ∃ t, (stepSwitch read m char).1.stack = m.stack ++ [t] := by
  unfold stepSwitch
  cases hs : m.state.state <;> dsimp only <;>
    repeat' split
  all_goals simp [up, flushD_fst_stack, flushG_fst_stack]

theorem stepAfter_stack_ne (read : Nat → Nat → List Nat) (m : Core) (char : Nat)
    (h : m.stack ≠ []) : (stepAfter read m char).1.stack ≠ [] := by
  unfold stepAfter
  split
  · dsimp only
    split
    · show (down (flushD read _).1).1.stack ≠ []
      apply down_stack_ne_nil
      rw [flushD_fst_stack]
      exact h
    · exact h
  · split
    · exact h
    · exact h

theorem processCharG_stack_ne (read : Nat → Nat → List Nat) (m : Core) (char : Nat)
    (h : m.stack ≠ []) : (processCharG read m char).1.stack ≠ [] := by
  show (stepAfter read (stepSwitch read m char).1 char).1.stack ≠ []
  apply stepAfter_stack_ne
  rcases stepSwitch_stack read m char with h1 | ⟨t, h1⟩ <;> rw [h1] <;> simp [h]

theorem runChunk_stack_ne (read : Nat → Nat → List Nat) (cs : List Nat) :
    ∀ m : Core, m.stack ≠ [] → (runChunk read m cs).1.stack ≠ [] := by
  induction cs with
  | nil => exact fun m h => h
  | cons c cs ih => exact fun m h => ih _ (processCharG_stack_ne read m c h)

/-- The instances reachable through the public interface: a fresh instance,
followed by any sequence of `write`, `flush` and `end` calls. -/
inductive Reachable : Inst → Prop where
  | init : Reachable initInst
  | write_step (m : Inst) (chunk : List Nat) : Reachable m → Reachable (write m chunk).1
  | flush_step (m : Inst) (s e : Nat) : Reachable m → Reachable (flushI m s e).1
  | end_step (m : Inst) : Reachable m → Reachable (endStream m).1

/-- C10: the element stack of every reachable instance is non-empty —
`clearState` pushes the root target, `up` only pushes, and `down` only pops
when more than one element is present, so the insertion target is always a
defined element. -/
theorem c10_element_stack_never_empty (m : Inst) (h : Reachable m) :
    m.core.stack ≠ [] := by
  induction h with
  | init => simp [initInst, initCore]
  | write_step m chunk _ ih =>
    unfold write
    dsimp only
    split
    · show (flushD _ (runChunk _ m.core chunk).1).1.stack ≠ []
      rw [flushD_fst_stack]
      exact runChunk_stack_ne _ chunk m.core ih
    · exact runChunk_stack_ne _ chunk m.core ih
  | flush_step m s e _ ih =>
    show (flushG _ m.core s e).1.stack ≠ []
    rw [flushG_fst_stack]
    exact ih
  | end_step m _ _ =>
    show initCore.stack ≠ []
    simp [initCore]

/-- C10 (witness): the invariant instantiated at the instance reached by
writing the fragment `"#\n"` to a fresh parser. -/
theorem c10_element_stack_never_empty_witness : (write initInst [35, 10]).1.core.stack ≠ [] :=
  c10_element_stack_never_empty (write initInst [35, 10]).1
    (Reachable.write_step initInst [35, 10] Reachable.init)

/-! ## Slicing lemmas -/

theorem jsSlice_of_le (l : List Nat) (a b : Nat) (h : a ≤ b) : jsSlice l b a = [] := by
  unfold jsSlice
  refine List.drop_eq_nil_of_le ?_
  exact le_trans (l.length_take_le a) h

theorem jsSlice_refl (l : List Nat) (a : Nat) : jsSlice l a a = [] :=
  jsSlice_of_le l a a le_rfl

theorem jsSlice_full (l : List Nat) : jsSlice l 0 l.length = l := by
  unfold jsSlice
  rw [List.take_length, List.drop_zero]

theorem getSubstring_single (c : List Nat) (s e : Nat) :
    getSubstring [c] s e = jsSlice c s e :=
  rfl

/-! ## Composition helpers for single-fragment runs -/

theorem runChunk_nil (read : Nat → Nat → List Nat) (m : Core) : runChunk read m [] = (m, []) :=
  rfl

theorem runChunk_cons (read : Nat → Nat → List Nat) (m : Core) (c : Nat) (cs : List Nat) :
    runChunk read m (c :: cs) =
      ((runChunk read (processCharG read m c).1 cs).1,
        (processCharG read m c).2 ++ (runChunk read (processCharG read m c).1 cs).2) :=
  rfl

theorem runChunk_one (read : Nat → Nat → List Nat) (m : Core) (c : Nat) :
    runChunk read m [c] = ((processCharG read m c).1, (processCharG read m c).2) := by
  rw [runChunk_cons, runChunk_nil, List.append_nil]

theorem processCharG_eq (read : Nat → Nat → List Nat) (m : Core) (char : Nat) :
    processCharG read m char =
      ({ (stepAfter read (stepSwitch read m char).1 char).1 with
          position := (stepAfter read (stepSwitch read m char).1 char).1.position + 1 },
        (stepSwitch read m char).2 ++ (stepAfter read (stepSwitch read m char).1 char).2) :=
  rfl

theorem runW_single (m : Inst) (p : List Nat) :
    runW m [p] = ((write m p).1, (write m p).2) := by
  unfold runW runW
  simp

theorem endStream_snd_of_unlocked (m : Inst) (h : m.core.state.locked = false) :
    (endStream m).2 = [] := by
  unfold endStream
  dsimp only
  rw [if_neg (by simp [h])]

theorem runDoc_single_of_unlocked (p : List Nat)
    (h : (write initInst p).1.core.state.locked = false) :
    runDoc [p] = (write initInst p).2 := by
  unfold runDoc
  rw [runW_single]
  dsimp only
  rw [endStream_snd_of_unlocked _ h, List.append_nil]

theorem write_initInst_eq (p : List Nat) :
    write initInst p =
      ({ initInst with
          chunks := [p],
          core := (flushD (getSubstring [p]) (runChunk (getSubstring [p]) initCore p).1).1 },
        (runChunk (getSubstring [p]) initCore p).2 ++
          (flushD (getSubstring [p]) (runChunk (getSubstring [p]) initCore p).1).2.1) :=
  rfl

/-! ## The heading recognizer runs -/

/-- The parser state while scanning a run of heading markers that started a
document: `n` markers seen, position `p`, `uncorfinmed_start` at `u` (the
index of the last marker seen). -/
def headingCore (n p u : Nat) : Core :=
  { position := p, start := 0, uncorfinmed_start := some u, stack := ["root"],
    state :=
      { locked := true, state := PState.SEQUENCE_HEADING, line_start := false,
        heading_count := n, hr_char := none, hr_count := 0, modifierStack := [] } }

theorem stepSwitch_normal_hash (read : Nat → Nat → List Nat) (m : Core)
    (h : m.state.state = PState.NORMAL) (hls : m.state.line_start = true) :
    stepSwitch read m HASH =
      ({ (flushD read m).1 with
          state := { (flushD read m).1.state with
            locked := true, state := PState.SEQUENCE_HEADING, heading_count := 1 },
          uncorfinmed_start := some (flushD read m).1.position }, (flushD read m).2.1) := by
  simp only [stepSwitch, h]
  rw [if_pos hls]
  simp

theorem processCharG_init_hash (read : Nat → Nat → List Nat) (h : read 0 0 = []) :
    processCharG read initCore HASH = (headingCore 1 1 0, []) := by
  have hf : flushD read initCore = (initCore, [], false) :=
    flushG_of_empty read initCore 0 0 h
  rw [processCharG_eq, stepSwitch_normal_hash read initCore rfl rfl, hf]
  rw [stepAfter_of_not_newline _ _ _ (by decide)]
  simp [initCore, headingCore]

theorem processCharG_heading_hash (read : Nat → Nat → List Nat) (n p u : Nat) :
    processCharG read (headingCore n p u) HASH =
      (headingCore (n + 1) (p + 1) (u + 1), []) := by
  rw [processCharG_eq, stepSwitch_heading_continue read (headingCore n p u) rfl]
  rw [stepAfter_of_not_newline _ _ _ (by decide)]
  simp [headingCore, optAdd]

theorem runChunk_heading_run (read : Nat → Nat → List Nat) (j : Nat) :
    ∀ (n p u : Nat) (rest : List Nat),
      runChunk read (headingCore n p u) (List.replicate j HASH ++ rest) =
        runChunk read (headingCore (n + j) (p + j) (u + j)) rest := by
  induction j with
  | zero => intro n p u rest; simp
  | succ j ih =>
    intro n p u rest
    rw [List.replicate_succ, List.cons_append, runChunk_cons, processCharG_heading_hash]
    dsimp only
    rw [ih (n + 1) (p + 1) (u + 1) rest]
    have h1 : n + 1 + j = n + (j + 1) := by omega
    have h2 : p + 1 + j = p + (j + 1) := by omega
    have h3 : u + 1 + j = u + (j + 1) := by omega
    rw [h1, h2, h3]
    simp

theorem processCharG_heading_space (read : Nat → Nat → List Nat) (n p u : Nat) :
    processCharG read (headingCore n p u) SPACE =
      ({ position := p + 1, start := u + 2, uncorfinmed_start := none,
          stack := ["root", hTag (min 6 n)],
          state :=
            { locked := false, state := PState.NORMAL, line_start := false,
              heading_count := n, hr_char := none, hr_count := 0, modifierStack := [] } },
        [Cmd.openBlock (hTag (min 6 n))]) := by
  rw [processCharG_eq, stepSwitch_heading_confirm read (headingCore n p u) SPACE rfl
    (by decide) (Or.inl rfl)]
  rw [stepAfter_of_not_newline _ _ _ (by decide)]
  simp [headingCore, optAdd]

theorem processCharG_heading_newline (read : Nat → Nat → List Nat) (n p u : Nat)
    (hn : 0 < n) (hread : read (u + 2) p = []) :
    processCharG read (headingCore n p u) NEWLINE =
      ({ position := p + 1, start := u + 2, uncorfinmed_start := none,
          stack := ["root"],
          state :=
            { locked := false, state := PState.NORMAL, line_start := true,
              heading_count := 0, hr_char := none, hr_count := 0, modifierStack := [] } },
        [Cmd.openBlock (hTag (min 6 n)), Cmd.closeBlock]) := by
  rw [processCharG_eq, stepSwitch_heading_confirm read (headingCore n p u) NEWLINE rfl
    (by decide) (Or.inr rfl)]
  simp [stepAfter, flushD, flushG, down, headingCore, optAdd, hread, hn]

theorem processCharG_heading_abort (read : Nat → Nat → List Nat) (n p u c : Nat)
    (hH : c ≠ HASH) (hS : c ≠ SPACE) (hN : c ≠ NEWLINE) :
    processCharG read (headingCore n p u) c =
      ({ position := p + 1, start := 0, uncorfinmed_start := none,
          stack := ["root"],
          state :=
            { locked := false, state := PState.NORMAL, line_start := false,
              heading_count := 0, hr_char := none, hr_count := 0, modifierStack := [] } },
        []) := by
  rw [processCharG_eq, stepSwitch_heading_abort read (headingCore n p u) c rfl hH hS hN]
  rw [stepAfter_of_not_newline _ _ _ hN]
  simp [headingCore]

/-- Compose a whole-document single-fragment run from the chunk run, the
write-boundary flush, and the fact that the final state is unlocked. -/
theorem runDoc_single_via (p : List Nat) (R R2 : Core) (tr o : List Cmd) (b : Bool)
    (hrun : runChunk (getSubstring [p]) initCore p = (R, tr))
    (hf : flushD (getSubstring [p]) R = (R2, o, b))
    (hl : R2.state.locked = false) :
    runDoc [p] = tr ++ o := by
  have hw : write initInst p =
      ({ initInst with chunks := [p], core := R2 }, tr ++ o) := by
    rw [write_initInst_eq, hrun]
    dsimp only
    rw [hf]
  rw [runDoc_single_of_unlocked p (by rw [hw]; exact hl), hw]

theorem c2aux_chunk (c : Nat) (j : Nat) :
    runChunk (getSubstring [List.replicate (j + 1) HASH ++ [c]]) initCore
        (List.replicate (j + 1) HASH ++ [c]) =
      ((processCharG (getSubstring [List.replicate (j + 1) HASH ++ [c]])
          (headingCore (j + 1) (j + 1) j) c).1,
        (processCharG (getSubstring [List.replicate (j + 1) HASH ++ [c]])
          (headingCore (j + 1) (j + 1) j) c).2) := by
  rw [List.replicate_succ, List.cons_append, runChunk_cons,
    processCharG_init_hash _ (by rw [getSubstring_single]; exact jsSlice_refl _ 0)]
  dsimp only
  rw [runChunk_heading_run _ j 1 1 0 [c]]
  have e1 : 1 + j = j + 1 := by omega
  have e2 : 0 + j = j := by omega
  rw [e1, e2, runChunk_one]
  simp

theorem c2aux_space (j : Nat) :
    runDoc [List.replicate (j + 1) HASH ++ [SPACE]] =
      [Cmd.openBlock (hTag (min 6 (j + 1)))] := by
  have hc := c2aux_chunk SPACE j
  rw [processCharG_heading_space] at hc
  have hf := flushG_of_empty (getSubstring [List.replicate (j + 1) HASH ++ [SPACE]])
    ({ position := j + 1 + 1, start := j + 2, uncorfinmed_start := none,
        stack := ["root", hTag (min 6 (j + 1))],
        state :=
          { locked := false, state := PState.NORMAL, line_start := false,
            heading_count := j + 1, hr_char := none, hr_count := 0,
            modifierStack := [] } } : Core) (j + 2) (j + 1 + 1)
    (by rw [getSubstring_single]; exact jsSlice_of_le _ _ _ (by omega))
  rw [runDoc_single_via _ _ _ _ _ _ hc hf rfl]
  simp

theorem c2aux_newline (j : Nat) :
    runDoc [List.replicate (j + 1) HASH ++ [NEWLINE]] =
      [Cmd.openBlock (hTag (min 6 (j + 1))), Cmd.closeBlock] := by
  have hc := c2aux_chunk NEWLINE j
  rw [processCharG_heading_newline _ (j + 1) (j + 1) j (by omega)
    (by rw [getSubstring_single]; exact jsSlice_of_le _ _ _ (by omega))] at hc
  have hf := flushG_of_empty (getSubstring [List.replicate (j + 1) HASH ++ [NEWLINE]])
    ({ position := j + 1 + 1, start := j + 2, uncorfinmed_start := none,
        stack := ["root"],
        state :=
          { locked := false, state := PState.NORMAL, line_start := true,
            heading_count := 0, hr_char := none, hr_count := 0,
            modifierStack := [] } } : Core) (j + 2) (j + 1 + 1)
    (by rw [getSubstring_single]; exact jsSlice_of_le _ _ _ (by omega))
  rw [runDoc_single_via _ _ _ _ _ _ hc hf rfl]
  simp

theorem c2aux_abort (j c : Nat) (hH : c ≠ HASH) (hS : c ≠ SPACE) (hN : c ≠ NEWLINE) :
    runDoc [List.replicate (j + 1) HASH ++ [c]] =
        [Cmd.appendText (List.replicate (j + 1) HASH ++ [c])] ∧
      (runW initInst [List.replicate (j + 1) HASH ++ [c]]).1.core.state.heading_count
        = 0 := by
  have hc := c2aux_chunk c j
  rw [processCharG_heading_abort _ (j + 1) (j + 1) j c hH hS hN] at hc
  have hrd : getSubstring [List.replicate (j + 1) HASH ++ [c]] 0 (j + 1 + 1) =
      List.replicate (j + 1) HASH ++ [c] := by
    rw [getSubstring_single]
    rw [show j + 1 + 1 = (List.replicate (j + 1) HASH ++ [c]).length by simp]
    exact jsSlice_full _
  have hf : flushD (getSubstring [List.replicate (j + 1) HASH ++ [c]])
      ({ position := j + 1 + 1, start := 0, uncorfinmed_start := none,
          stack := ["root"],
          state :=
            { locked := false, state := PState.NORMAL, line_start := false,
              heading_count := 0, hr_char := none, hr_count := 0,
              modifierStack := [] } } : Core) =
      (({ position := j + 1 + 1, start := j + 1 + 1, uncorfinmed_start := none,
          stack := ["root"],
          state :=
            { locked := false, state := PState.NORMAL, line_start := false,
              heading_count := 0, hr_char := none, hr_count := 0,
              modifierStack := [] } } : Core),
        [Cmd.appendText (List.replicate (j + 1) HASH ++ [c])], true) := by
    have h0 := flushG_of_fire (getSubstring [List.replicate (j + 1) HASH ++ [c]])
      ({ position := j + 1 + 1, start := 0, uncorfinmed_start := none,
          stack := ["root"],
          state :=
            { locked := false, state := PState.NORMAL, line_start := false,
              heading_count := 0, hr_char := none, hr_count := 0,
              modifierStack := [] } } : Core) 0 (j + 1 + 1)
      rfl (by rw [hrd]; simp)
    rw [hrd] at h0
    exact h0
  constructor
  · rw [runDoc_single_via _ _ _ _ _ _ hc hf rfl]
    simp
  · have hw : write initInst (List.replicate (j + 1) HASH ++ [c]) =
        ({ initInst with
            chunks := [List.replicate (j + 1) HASH ++ [c]],
            core :=
              { position := j + 1 + 1, start := j + 1 + 1, uncorfinmed_start := none,
                stack := ["root"],
                state :=
                  { locked := false, state := PState.NORMAL, line_start := false,
                    heading_count := 0, hr_char := none, hr_count := 0,
                    modifierStack := [] } } },
          [] ++ [Cmd.appendText (List.replicate (j + 1) HASH ++ [c])]) := by
      rw [write_initInst_eq, hc]
      dsimp only
      rw [hf]
    rw [runW_single]
    rw [hw]

/-- C2: at a line start, a run of `k` heading markers confirms a heading of
level `min(6, k)` exactly when the character after the run is a space or a
newline (on a newline the heading is also closed at once); on any other
following character the recognizer aborts, the run count is reset to `0`, no
heading block is emitted, and the whole run is rendered as plain text.  In
particular `"# ab\n"` yields one level-1 heading containing `"ab"`, and a run
of seven markers is capped at level 6. -/
theorem c2_heading_recognizer (k c : Nat) (hk : 1 ≤ k) (hH : c ≠ HASH) :
    (c = SPACE → runDoc [List.replicate k HASH ++ [c]] =
        [Cmd.openBlock (hTag (min 6 k))]) ∧
    (c = NEWLINE → runDoc [List.replicate k HASH ++ [c]] =
        [Cmd.openBlock (hTag (min 6 k)), Cmd.closeBlock]) ∧
    (c ≠ SPACE → c ≠ NEWLINE →
      runDoc [List.replicate k HASH ++ [c]] =
          [Cmd.appendText (List.replicate k HASH ++ [c])] ∧
        (runW initInst [List.replicate k HASH ++ [c]]).1.core.state.heading_count = 0) ∧
    runDoc [[HASH, SPACE, 97, 98, NEWLINE]] =
      [Cmd.openBlock (hTag 1), Cmd.appendText [97, 98], Cmd.closeBlock,
        Cmd.appendText [NEWLINE]] ∧
    runDoc [List.replicate 7 HASH ++ [SPACE]] = [Cmd.openBlock (hTag 6)] := by
  obtain ⟨j, rfl⟩ : ∃ j, k = j + 1 := ⟨k - 1, by omega⟩
  refine ⟨?_, ?_, ?_, ?_, ?_⟩
  · rintro rfl
    exact c2aux_space j
  · rintro rfl
    exact c2aux_newline j
  · intro hS hN
    exact c2aux_abort j c hH hS hN
  · decide
  · decide

/-- C2 (witness): the heading theorem instantiated at a run of two markers
followed by a space, and at a run of two markers followed by the letter `a`. -/
theorem c2_heading_recognizer_witness :
    runDoc [List.replicate 2 HASH ++ [SPACE]] = [Cmd.openBlock (hTag (min 6 2))] ∧
      runDoc [List.replicate 2 HASH ++ [97]] =
        [Cmd.appendText (List.replicate 2 HASH ++ [97])] :=
  ⟨(c2_heading_recognizer 2 SPACE (by decide) (by decide)).1 rfl,
    ((c2_heading_recognizer 2 97 (by decide) (by decide)).2.2.1 (by decide) (by decide)).1⟩

/-! ## The horizontal-rule recognizer runs -/

/-- The parser state while scanning a run of rule markers `ch` that started a
document: `n` markers seen, position `p`. -/
def hrCore (ch n p : Nat) : Core :=
  { position := p, start := 0, uncorfinmed_start := some 0, stack := ["root"],
    state :=
      { locked := true, state := PState.SEQUENCE_HR, line_start := false,
        heading_count := 0, hr_char := some ch, hr_count := n, modifierStack := [] } }

theorem stepSwitch_normal_hr (read : Nat → Nat → List Nat) (m : Core) (char : Nat)
    (h : m.state.state = PState.NORMAL) (hls : m.state.line_start = true)
    (hH : char ≠ HASH) (hc : char = UNDERSCORE ∨ char = ASTERISK ∨ char = DASH) :
    stepSwitch read m char =
      ({ (flushD read m).1 with
          state := { (flushD read m).1.state with
            locked := true, state := PState.SEQUENCE_HR,
            hr_char := some char, hr_count := 1 },
          uncorfinmed_start := some (flushD read m).1.position }, (flushD read m).2.1) := by
  simp only [stepSwitch, h]
  rw [if_pos hls, if_neg hH, if_pos hc]

theorem processCharG_init_hr (read : Nat → Nat → List Nat) (ch : Nat)
    (hc : ch = UNDERSCORE ∨ ch = ASTERISK ∨ ch = DASH) (hH : ch ≠ HASH)
    (hN : ch ≠ NEWLINE) (h00 : read 0 0 = []) :
    processCharG read initCore ch = (hrCore ch 1 1, []) := by
  have hf : flushD read initCore = (initCore, [], false) :=
    flushG_of_empty read initCore 0 0 h00
  rw [processCharG_eq, stepSwitch_normal_hr read initCore ch rfl rfl hH hc, hf]
  rw [stepAfter_of_not_newline _ _ _ hN]
  simp [initCore, hrCore]

theorem processCharG_hr_continue (read : Nat → Nat → List Nat) (ch n p : Nat)
    (hN : ch ≠ NEWLINE) :
    processCharG read (hrCore ch n p) ch = (hrCore ch (n + 1) (p + 1), []) := by
  rw [processCharG_eq, stepSwitch_hr_continue read (hrCore ch n p) ch rfl (Or.inl rfl)]
  rw [stepAfter_of_not_newline _ _ _ hN]
  simp [hrCore]

theorem runChunk_hr_run (read : Nat → Nat → List Nat) (ch : Nat) (hN : ch ≠ NEWLINE)
    (j : Nat) : ∀ (n p : Nat) (rest : List Nat),
      runChunk read (hrCore ch n p) (List.replicate j ch ++ rest) =
        runChunk read (hrCore ch (n + j) (p + j)) rest := by
  induction j with
  | zero => intro n p rest; simp
  | succ j ih =>
    intro n p rest
    rw [List.replicate_succ, List.cons_append, runChunk_cons,
      processCharG_hr_continue read ch n p hN]
    dsimp only
    rw [ih (n + 1) (p + 1) rest]
    have h1 : n + 1 + j = n + (j + 1) := by omega
    have h2 : p + 1 + j = p + (j + 1) := by omega
    rw [h1, h2]
    simp

theorem processCharG_hr_confirm (read : Nat → Nat → List Nat) (ch n p : Nat)
    (hn : n > 2) (hch : ch ≠ NEWLINE) :
    processCharG read (hrCore ch n p) NEWLINE =
      ({ position := p + 1, start := p, uncorfinmed_start := some 0,
          stack := ["root"],
          state :=
            { locked := false, state := PState.NORMAL, line_start := true,
              heading_count := 0, hr_char := none, hr_count := 0,
              modifierStack := [] } },
        [Cmd.insertHr]) := by
  rw [processCharG_eq, stepSwitch_hr_confirm read (hrCore ch n p) NEWLINE rfl
    (by simp [hrCore]; exact ⟨fun hx => hch hx.symm, by decide⟩) ⟨hn, rfl⟩]
  simp [stepAfter, hrCore]

theorem processCharG_hr_abortmod (read : Nat → Nat → List Nat) (ch n p c : Nat)
    (wl : List Nat) (hmod : isModifierChar ch = true)
    (hcch : c ≠ ch) (hcs : c ≠ SPACE)
    (hfire : ¬(n > 2 ∧ c = NEWLINE)) (hrd : read 0 p = wl) (hw : wl ≠ []) :
    processCharG read (hrCore ch n p) c =
      (if c = NEWLINE then
        ({ position := p + 1, start := p, uncorfinmed_start := some (p + 1),
            stack := ["root"],
            state :=
              { locked := false, state := PState.SEQUENCE_MODIFIER, line_start := true,
                heading_count := 0, hr_char := none, hr_count := 0,
                modifierStack := [] } },
          [Cmd.appendText wl])
      else
        ({ position := p + 1, start := p, uncorfinmed_start := some (p + 1),
            stack := ["root"],
            state :=
              { locked := false, state := PState.SEQUENCE_MODIFIER, line_start := false,
                heading_count := 0, hr_char := none, hr_count := 0,
                modifierStack := [ModEntry.mk ch n none] } },
          [Cmd.appendText wl])) := by
  have hfl : flushD read
      ({ position := p, start := 0, uncorfinmed_start := some 0, stack := ["root"],
          state :=
            { locked := false, state := PState.NORMAL, line_start := false,
              heading_count := 0, hr_char := some ch, hr_count := n,
              modifierStack := [] } } : Core) =
      (({ position := p, start := p, uncorfinmed_start := none, stack := ["root"],
          state :=
            { locked := false, state := PState.NORMAL, line_start := false,
              heading_count := 0, hr_char := some ch, hr_count := n,
              modifierStack := [] } } : Core), [Cmd.appendText wl], true) := by
    have h0 := flushG_of_fire read
      ({ position := p, start := 0, uncorfinmed_start := some 0, stack := ["root"],
          state :=
            { locked := false, state := PState.NORMAL, line_start := false,
              heading_count := 0, hr_char := some ch, hr_count := n,
              modifierStack := [] } } : Core) 0 p rfl (by rw [hrd]; exact hw)
    rw [hrd] at h0
    exact h0
  rw [processCharG_eq, stepSwitch_hr_abort_modifier read (hrCore ch n p) c ch rfl
    (by simp [hrCore]; exact ⟨hcch, hcs⟩) rfl hmod (by simpa [hrCore] using hfire)]
  by_cases hnl : c = NEWLINE
  · subst hnl
    rw [if_pos rfl]
    dsimp only [hrCore]
    rw [hfl]
    simp [stepAfter]
  · rw [if_neg hnl]
    dsimp only [hrCore]
    rw [hfl]
    rw [stepAfter_of_not_newline _ _ _ hnl]
    simp

theorem processCharG_hr_abortdash (read : Nat → Nat → List Nat) (n p c : Nat)
    (hcch : c ≠ DASH) (hcs : c ≠ SPACE) (hfire : ¬(n > 2 ∧ c = NEWLINE)) :
    processCharG read (hrCore DASH n p) c =
      (if c = NEWLINE then
        ({ position := p + 1, start := 0, uncorfinmed_start := some 0,
            stack := ["root"],
            state :=
              { locked := false, state := PState.NORMAL, line_start := true,
                heading_count := 0, hr_char := none, hr_count := 0,
                modifierStack := [] } }, [])
      else
        ({ position := p + 1, start := 0, uncorfinmed_start := some 0,
            stack := ["root"],
            state :=
              { locked := false, state := PState.NORMAL, line_start := false,
                heading_count := 0, hr_char := none, hr_count := 0,
                modifierStack := [] } }, [])) := by
  rw [processCharG_eq, stepSwitch_hr_abort_plain read (hrCore DASH n p) c DASH rfl
    (by simp [hrCore]; exact ⟨hcch, hcs⟩) rfl (by decide)
    (by simpa [hrCore] using hfire)]
  by_cases hnl : c = NEWLINE
  · subst hnl
    rw [if_pos rfl]
    simp [stepAfter, hrCore]
  · rw [if_neg hnl]
    rw [stepAfter_of_not_newline _ _ _ hnl]
    simp [hrCore]

theorem repl_prefix (n ch c : Nat) :
    jsSlice (List.replicate n ch ++ [c]) 0 n = List.replicate n ch := by
  unfold jsSlice
  rw [List.drop_zero]
  have h := List.take_left (List.replicate n ch) [c]
  simp only [List.length_replicate] at h
  exact h

theorem repl_last (n ch c : Nat) :
    jsSlice (List.replicate n ch ++ [c]) n (n + 1) = [c] := by
  unfold jsSlice
  rw [List.take_of_length_le (by simp)]
  have h := List.drop_left (List.replicate n ch) [c]
  simp only [List.length_replicate] at h
  exact h

theorem repl_full (n ch c : Nat) :
    jsSlice (List.replicate n ch ++ [c]) 0 (n + 1) = List.replicate n ch ++ [c] := by
  have h := jsSlice_full (List.replicate n ch ++ [c])
  simpa using h

theorem c3aux_chunk (ch c j : Nat)
    (hc : ch = UNDERSCORE ∨ ch = ASTERISK ∨ ch = DASH) (hH : ch ≠ HASH)
    (hN : ch ≠ NEWLINE) :
    runChunk (getSubstring [List.replicate (j + 1) ch ++ [c]]) initCore
        (List.replicate (j + 1) ch ++ [c]) =
      ((processCharG (getSubstring [List.replicate (j + 1) ch ++ [c]])
          (hrCore ch (j + 1) (j + 1)) c).1,
        (processCharG (getSubstring [List.replicate (j + 1) ch ++ [c]])
          (hrCore ch (j + 1) (j + 1)) c).2) := by
  rw [List.replicate_succ, List.cons_append, runChunk_cons,
    processCharG_init_hr _ ch hc hH hN
      (by rw [getSubstring_single]; exact jsSlice_refl _ 0)]
  dsimp only
  rw [runChunk_hr_run _ ch hN j 1 1 [c]]
  have e1 : 1 + j = j + 1 := by omega
  rw [e1, runChunk_one]
  simp

theorem c3aux_confirm (ch j : Nat)
    (hc : ch = UNDERSCORE ∨ ch = ASTERISK ∨ ch = DASH) (hH : ch ≠ HASH)
    (hN : ch ≠ NEWLINE) (hn : j + 1 > 2) :
    runDoc [List.replicate (j + 1) ch ++ [NEWLINE]] =
      [Cmd.insertHr, Cmd.appendText [NEWLINE]] := by
  have hcc := c3aux_chunk ch NEWLINE j hc hH hN
  rw [processCharG_hr_confirm _ ch (j + 1) (j + 1) hn hN] at hcc
  have hrd : getSubstring [List.replicate (j + 1) ch ++ [NEWLINE]] (j + 1) (j + 1 + 1) =
      [NEWLINE] := by
    rw [getSubstring_single]
    exact repl_last (j + 1) ch NEWLINE
  have hf : flushD (getSubstring [List.replicate (j + 1) ch ++ [NEWLINE]])
      ({ position := j + 1 + 1, start := j + 1, uncorfinmed_start := some 0,
          stack := ["root"],
          state :=
            { locked := false, state := PState.NORMAL, line_start := true,
              heading_count := 0, hr_char := none, hr_count := 0,
              modifierStack := [] } } : Core) =
      (({ position := j + 1 + 1, start := j + 1 + 1, uncorfinmed_start := none,
          stack := ["root"],
          state :=
            { locked := false, state := PState.NORMAL, line_start := true,
              heading_count := 0, hr_char := none, hr_count := 0,
              modifierStack := [] } } : Core), [Cmd.appendText [NEWLINE]], true) := by
    have h0 := flushG_of_fire (getSubstring [List.replicate (j + 1) ch ++ [NEWLINE]])
      ({ position := j + 1 + 1, start := j + 1, uncorfinmed_start := some 0,
          stack := ["root"],
          state :=
            { locked := false, state := PState.NORMAL, line_start := true,
              heading_count := 0, hr_char := none, hr_count := 0,
              modifierStack := [] } } : Core) (j + 1) (j + 1 + 1) rfl (by rw [hrd]; simp)
    rw [hrd] at h0
    exact h0
  rw [runDoc_single_via _ _ _ _ _ _ hcc hf rfl]
  simp

theorem c3aux_nl_mod (ch j : Nat) (hmod : isModifierChar ch = true)
    (hc : ch = UNDERSCORE ∨ ch = ASTERISK ∨ ch = DASH) (hH : ch ≠ HASH)
    (hN : ch ≠ NEWLINE) (hn : ¬(j + 1 > 2)) :
    runDoc [List.replicate (j + 1) ch ++ [NEWLINE]] =
      [Cmd.appendText (List.replicate (j + 1) ch), Cmd.appendText [NEWLINE]] := by
  have hcc := c3aux_chunk ch NEWLINE j hc hH hN
  have hrun : getSubstring [List.replicate (j + 1) ch ++ [NEWLINE]] 0 (j + 1) =
      List.replicate (j + 1) ch := by
    rw [getSubstring_single]
    exact repl_prefix (j + 1) ch NEWLINE
  rw [processCharG_hr_abortmod _ ch (j + 1) (j + 1) NEWLINE (List.replicate (j + 1) ch)
    hmod (fun hx => hN hx.symm) (by decide) (by simpa using hn) hrun (by simp)] at hcc
  rw [if_pos rfl] at hcc
  have hrd : getSubstring [List.replicate (j + 1) ch ++ [NEWLINE]] (j + 1) (j + 1 + 1) =
      [NEWLINE] := by
    rw [getSubstring_single]
    exact repl_last (j + 1) ch NEWLINE
  have hf : flushD (getSubstring [List.replicate (j + 1) ch ++ [NEWLINE]])
      ({ position := j + 1 + 1, start := j + 1, uncorfinmed_start := some (j + 1 + 1),
          stack := ["root"],
          state :=
            { locked := false, state := PState.SEQUENCE_MODIFIER, line_start := true,
              heading_count := 0, hr_char := none, hr_count := 0,
              modifierStack := [] } } : Core) =
      (({ position := j + 1 + 1, start := j + 1 + 1, uncorfinmed_start := none,
          stack := ["root"],
          state :=
            { locked := false, state := PState.SEQUENCE_MODIFIER, line_start := true,
              heading_count := 0, hr_char := none, hr_count := 0,
              modifierStack := [] } } : Core), [Cmd.appendText [NEWLINE]], true) := by
    have h0 := flushG_of_fire (getSubstring [List.replicate (j + 1) ch ++ [NEWLINE]])
      ({ position := j + 1 + 1, start := j + 1, uncorfinmed_start := some (j + 1 + 1),
          stack := ["root"],
          state :=
            { locked := false, state := PState.SEQUENCE_MODIFIER, line_start := true,
              heading_count := 0, hr_char := none, hr_count := 0,
              modifierStack := [] } } : Core) (j + 1) (j + 1 + 1) rfl (by rw [hrd]; simp)
    rw [hrd] at h0
    exact h0
  rw [runDoc_single_via _ _ _ _ _ _ hcc hf rfl]
  simp

theorem c3aux_nl_dash (j : Nat) (hn : ¬(j + 1 > 2)) :
    runDoc [List.replicate (j + 1) DASH ++ [NEWLINE]] =
      [Cmd.appendText (List.replicate (j + 1) DASH ++ [NEWLINE])] := by
  have hcc := c3aux_chunk DASH NEWLINE j (Or.inr (Or.inr rfl)) (by decide) (by decide)
  rw [processCharG_hr_abortdash _ (j + 1) (j + 1) NEWLINE (by decide) (by decide)
    (by simpa using hn)] at hcc
  rw [if_pos rfl] at hcc
  have hrd : getSubstring [List.replicate (j + 1) DASH ++ [NEWLINE]] 0 (j + 1 + 1) =
      List.replicate (j + 1) DASH ++ [NEWLINE] := by
    rw [getSubstring_single]
    exact repl_full (j + 1) DASH NEWLINE
  have hf : flushD (getSubstring [List.replicate (j + 1) DASH ++ [NEWLINE]])
      ({ position := j + 1 + 1, start := 0, uncorfinmed_start := some 0,
          stack := ["root"],
          state :=
            { locked := false, state := PState.NORMAL, line_start := true,
              heading_count := 0, hr_char := none, hr_count := 0,
              modifierStack := [] } } : Core) =
      (({ position := j + 1 + 1, start := j + 1 + 1, uncorfinmed_start := none,
          stack := ["root"],
          state :=
            { locked := false, state := PState.NORMAL, line_start := true,
              heading_count := 0, hr_char := none, hr_count := 0,
              modifierStack := [] } } : Core),
        [Cmd.appendText (List.replicate (j + 1) DASH ++ [NEWLINE])], true) := by
    have h0 := flushG_of_fire (getSubstring [List.replicate (j + 1) DASH ++ [NEWLINE]])
      ({ position := j + 1 + 1, start := 0, uncorfinmed_start := some 0,
          stack := ["root"],
          state :=
            { locked := false, state := PState.NORMAL, line_start := true,
              heading_count := 0, hr_char := none, hr_count := 0,
              modifierStack := [] } } : Core) 0 (j + 1 + 1) rfl (by rw [hrd]; simp)
    rw [hrd] at h0
    exact h0
  rw [runDoc_single_via _ _ _ _ _ _ hcc hf rfl]
  simp

theorem c3aux_other_mod (ch j c : Nat) (hmod : isModifierChar ch = true)
    (hc : ch = UNDERSCORE ∨ ch = ASTERISK ∨ ch = DASH) (hH : ch ≠ HASH)
    (hN : ch ≠ NEWLINE) (hcch : c ≠ ch) (hcs : c ≠ SPACE) (hcn : c ≠ NEWLINE) :
    runDoc [List.replicate (j + 1) ch ++ [c]] =
        [Cmd.appendText (List.replicate (j + 1) ch), Cmd.appendText [c]] ∧
      (runW initInst [List.replicate (j + 1) ch ++ [c]]).1.core.state.modifierStack =
        [ModEntry.mk ch (j + 1) none] := by
  have hcc := c3aux_chunk ch c j hc hH hN
  have hrun : getSubstring [List.replicate (j + 1) ch ++ [c]] 0 (j + 1) =
      List.replicate (j + 1) ch := by
    rw [getSubstring_single]
    exact repl_prefix (j + 1) ch c
  rw [processCharG_hr_abortmod _ ch (j + 1) (j + 1) c (List.replicate (j + 1) ch)
    hmod hcch hcs (by simp [hcn]) hrun (by simp)] at hcc
  rw [if_neg hcn] at hcc
  have hrd : getSubstring [List.replicate (j + 1) ch ++ [c]] (j + 1) (j + 1 + 1) =
      [c] := by
    rw [getSubstring_single]
    exact repl_last (j + 1) ch c
  have hf : flushD (getSubstring [List.replicate (j + 1) ch ++ [c]])
      ({ position := j + 1 + 1, start := j + 1, uncorfinmed_start := some (j + 1 + 1),
          stack := ["root"],
          state :=
            { locked := false, state := PState.SEQUENCE_MODIFIER, line_start := false,
              heading_count := 0, hr_char := none, hr_count := 0,
              modifierStack := [ModEntry.mk ch (j + 1) none] } } : Core) =
      (({ position := j + 1 + 1, start := j + 1 + 1, uncorfinmed_start := none,
          stack := ["root"],
          state :=
            { locked := false, state := PState.SEQUENCE_MODIFIER, line_start := false,
              heading_count := 0, hr_char := none, hr_count := 0,
              modifierStack := [ModEntry.mk ch (j + 1) none] } } : Core),
        [Cmd.appendText [c]], true) := by
    have h0 := flushG_of_fire (getSubstring [List.replicate (j + 1) ch ++ [c]])
      ({ position := j + 1 + 1, start := j + 1, uncorfinmed_start := some (j + 1 + 1),
          stack := ["root"],
          state :=
            { locked := false, state := PState.SEQUENCE_MODIFIER, line_start := false,
              heading_count := 0, hr_char := none, hr_count := 0,
              modifierStack := [ModEntry.mk ch (j + 1) none] } } : Core)
      (j + 1) (j + 1 + 1) rfl (by rw [hrd]; simp)
    rw [hrd] at h0
    exact h0
  constructor
  · rw [runDoc_single_via _ _ _ _ _ _ hcc hf rfl]
    simp
  · have hw : write initInst (List.replicate (j + 1) ch ++ [c]) =
        ({ initInst with
            chunks := [List.replicate (j + 1) ch ++ [c]],
            core :=
              { position := j + 1 + 1, start := j + 1 + 1, uncorfinmed_start := none,
                stack := ["root"],
                state :=
                  { locked := false, state := PState.SEQUENCE_MODIFIER,
                    line_start := false, heading_count := 0, hr_char := none,
                    hr_count := 0,
                    modifierStack := [ModEntry.mk ch (j + 1) none] } } },
          [Cmd.appendText (List.replicate (j + 1) ch)] ++ [Cmd.appendText [c]]) := by
      rw [write_initInst_eq, hcc]
      dsimp only
      rw [hf]
    rw [runW_single, hw]

theorem c3aux_other_dash (j c : Nat) (hcch : c ≠ DASH) (hcs : c ≠ SPACE)
    (hcn : c ≠ NEWLINE) :
    runDoc [List.replicate (j + 1) DASH ++ [c]] =
      [Cmd.appendText (List.replicate (j + 1) DASH ++ [c])] := by
  have hcc := c3aux_chunk DASH c j (Or.inr (Or.inr rfl)) (by decide) (by decide)
  rw [processCharG_hr_abortdash _ (j + 1) (j + 1) c hcch hcs (by simp [hcn])] at hcc
  rw [if_neg hcn] at hcc
  have hrd : getSubstring [List.replicate (j + 1) DASH ++ [c]] 0 (j + 1 + 1) =
      List.replicate (j + 1) DASH ++ [c] := by
    rw [getSubstring_single]
    exact repl_full (j + 1) DASH c
  have hf : flushD (getSubstring [List.replicate (j + 1) DASH ++ [c]])
      ({ position := j + 1 + 1, start := 0, uncorfinmed_start := some 0,
          stack := ["root"],
          state :=
            { locked := false, state := PState.NORMAL, line_start := false,
              heading_count := 0, hr_char := none, hr_count := 0,
              modifierStack := [] } } : Core) =
      (({ position := j + 1 + 1, start := j + 1 + 1, uncorfinmed_start := none,
          stack := ["root"],
          state :=
            { locked := false, state := PState.NORMAL, line_start := false,
              heading_count := 0, hr_char := none, hr_count := 0,
              modifierStack := [] } } : Core),
        [Cmd.appendText (List.replicate (j + 1) DASH ++ [c])], true) := by
    have h0 := flushG_of_fire (getSubstring [List.replicate (j + 1) DASH ++ [c]])
      ({ position := j + 1 + 1, start := 0, uncorfinmed_start := some 0,
          stack := ["root"],
          state :=
            { locked := false, state := PState.NORMAL, line_start := false,
              heading_count := 0, hr_char := none, hr_count := 0,
              modifierStack := [] } } : Core) 0 (j + 1 + 1) rfl (by rw [hrd]; simp)
    rw [hrd] at h0
    exact h0
  rw [runDoc_single_via _ _ _ _ _ _ hcc hf rfl]
  simp

/-- C3: a line-start run of `N` identical rule-eligible markers terminated by
a newline confirms exactly one horizontal-rule block when `N ≥ 3`; when
`N < 3`, or when the run is terminated by something other than a newline, no
rule block is emitted and the run is re-evaluated: a modifier-capable marker
run is handed off to the modifier stack (and flushed as literal text), a dash
run becomes plain text. -/
theorem c3_hr_recognizer (N mk c : Nat) (hN1 : 1 ≤ N)
    (hmk : mk = DASH ∨ mk = ASTERISK ∨ mk = UNDERSCORE)
    (hc1 : c ≠ mk) (hc2 : c ≠ SPACE) :
    (3 ≤ N → c = NEWLINE →
      runDoc [List.replicate N mk ++ [c]] =
        [Cmd.insertHr, Cmd.appendText [NEWLINE]]) ∧
    (N < 3 → c = NEWLINE → isModifierChar mk = true →
      runDoc [List.replicate N mk ++ [c]] =
        [Cmd.appendText (List.replicate N mk), Cmd.appendText [NEWLINE]]) ∧
    (N < 3 → c = NEWLINE → mk = DASH →
      runDoc [List.replicate N mk ++ [c]] =
        [Cmd.appendText (List.replicate N mk ++ [NEWLINE])]) ∧
    (c ≠ NEWLINE → isModifierChar mk = true →
      runDoc [List.replicate N mk ++ [c]] =
          [Cmd.appendText (List.replicate N mk), Cmd.appendText [c]] ∧
        (runW initInst [List.replicate N mk ++ [c]]).1.core.state.modifierStack =
          [ModEntry.mk mk N none]) ∧
    (c ≠ NEWLINE → mk = DASH →
      runDoc [List.replicate N mk ++ [c]] =
        [Cmd.appendText (List.replicate N mk ++ [c])]) := by
  obtain ⟨j, rfl⟩ : ∃ j, N = j + 1 := ⟨N - 1, by omega⟩
  have htrio : mk = UNDERSCORE ∨ mk = ASTERISK ∨ mk = DASH := by
    rcases hmk with h | h | h
    · exact Or.inr (Or.inr h)
    · exact Or.inr (Or.inl h)
    · exact Or.inl h
  have hH : mk ≠ HASH := by
    rcases hmk with h | h | h <;> subst h <;> decide
  have hNc : mk ≠ NEWLINE := by
    rcases hmk with h | h | h <;> subst h <;> decide
  refine ⟨fun h3 hnl => ?_, fun h3 hnl hmod => ?_, fun h3 hnl hdash => ?_,
    fun hnl hmod => ?_, fun hnl hdash => ?_⟩
  · subst hnl
    exact c3aux_confirm mk j htrio hH hNc (by omega)
  · subst hnl
    exact c3aux_nl_mod mk j hmod htrio hH hNc (by omega)
  · subst hnl hdash
    exact c3aux_nl_dash j (by omega)
  · exact c3aux_other_mod mk j c hmod htrio hH hNc hc1 hc2 hnl
  · subst hdash
    exact c3aux_other_dash j c hc1 hc2 hnl

/-- C3 (witness): the rule theorem instantiated at `"***\n"` (three asterisks
then a newline: one rule block) and at `"**\n"` (two asterisks then a newline:
no rule, the run handed off as literal text). -/
theorem c3_hr_recognizer_witness :
    runDoc [List.replicate 3 ASTERISK ++ [NEWLINE]] =
        [Cmd.insertHr, Cmd.appendText [NEWLINE]] ∧
      runDoc [List.replicate 2 ASTERISK ++ [NEWLINE]] =
        [Cmd.appendText (List.replicate 2 ASTERISK), Cmd.appendText [NEWLINE]] :=
  ⟨(c3_hr_recognizer 3 ASTERISK NEWLINE (by decide) (Or.inr (Or.inl rfl)) (by decide)
      (by decide)).1 (by decide) rfl,
    ((c3_hr_recognizer 2 ASTERISK NEWLINE (by decide) (Or.inr (Or.inl rfl)) (by decide)
      (by decide)).2.1) (by decide) rfl (by decide)⟩

/-! ## Correctness of the chunk store

`getSubstring` over the chunk list agrees with slicing the concatenation of
all chunks, for every pair of offsets. -/

theorem jsSliceInt_coe (l : List Nat) (a b : Nat) :
    jsSliceInt l (a : Int) (b : Int) = jsSlice l a b := by
  unfold jsSliceInt jsSlice
  have ha : ¬((a : Int) < 0) := by omega
  have hb : ¬((b : Int) < 0) := by omega
  simp only [if_neg ha, if_neg hb]
  have e1 : ((a : Int) ⊓ (l.length : Int)).toNat = min a l.length := by omega
  have e2 : ((b : Int) ⊓ (l.length : Int)).toNat = min b l.length := by omega
  rw [e1, e2]
  have e3 : l.take (min b l.length) = l.take b := by
    rcases le_total b l.length with h | h
    · rw [min_eq_left h]
    · rw [min_eq_right h, List.take_of_length_le (le_refl _), List.take_of_length_le h]
  rw [e3]
  rcases le_total a l.length with h | h
  · rw [min_eq_left h]
  · have hlen : (l.take b).length ≤ l.length := by
      rw [List.length_take]
      exact min_le_right _ _
    rw [min_eq_right h,
      show List.drop l.length (l.take b) = [] from List.drop_eq_nil_of_le hlen,
      show List.drop a (l.take b) = [] from List.drop_eq_nil_of_le (le_trans hlen h)]

theorem jsSlice_append_split (c r : List Nat) (a b : Nat) :
    jsSlice (c ++ r) a b = jsSlice c a b ++ jsSlice r (a - c.length) (b - c.length) := by
  unfold jsSlice
  rw [List.take_append_eq_append_take, List.drop_append_eq_append_drop]
  congr 1
  by_cases hb : c.length ≤ b
  · have hlen : (c.take b).length = c.length := by
      rw [List.length_take]
      omega
    rw [hlen]
  · have hb0 : b - c.length = 0 := by omega
    rw [hb0]
    simp

theorem jsSlice_concat (l : List Nat) (x y z : Nat) (hxy : x ≤ y) (hyz : y ≤ z) :
    jsSlice l x y ++ jsSlice l y z = jsSlice l x z := by
  unfold jsSlice
  by_cases hy : y ≤ l.length
  · have hlen : (l.take y).length = y := by
      rw [List.length_take]
      omega
    have hsplit : l.take z = l.take y ++ (l.take z).drop y := by
      conv_lhs => rw [← List.take_append_drop y (l.take z)]
      rw [List.take_take, min_eq_left hyz]
    conv_rhs => rw [hsplit]
    rw [List.drop_append_eq_append_drop, hlen, Nat.sub_eq_zero_of_le hxy,
      List.drop_zero]
  · have h1 : l.take y = l := List.take_of_length_le (by omega)
    have h2 : l.take z = l := List.take_of_length_le (by omega)
    rw [h1, h2, show List.drop y l = [] from List.drop_eq_nil_of_le (by omega),
      List.append_nil]

theorem jsSlice_of_len_le (l : List Nat) (a b : Nat) (h : l.length ≤ a) :
    jsSlice l a b = [] := by
  unfold jsSlice
  exact List.drop_eq_nil_of_le (le_trans (by rw [List.length_take]; exact min_le_right _ _) h)

theorem jsSlice_min_right (l : List Nat) (a b : Nat) :
    jsSlice l a (min l.length b) = jsSlice l a b := by
  unfold jsSlice
  rcases le_total l.length b with h | h
  · rw [min_eq_left h, List.take_of_length_le (le_refl _), List.take_of_length_le h]
  · rw [min_eq_right h]

theorem fastScan_none_of_lt :
    ∀ (chunks : List (List Nat)) (idx s e : Nat), s < idx →
      fastScan chunks idx s e = none := by
  intro chunks
  induction chunks with
  | nil => intro idx s e _; rfl
  | cons c rest ih =>
    intro idx s e h
    unfold fastScan
    rw [if_neg (by rintro ⟨h1, _⟩; omega), if_neg (by rintro ⟨h1, _⟩; omega)]
    exact ih (idx + c.length) s e (by omega)

theorem fastScan_some :
    ∀ (chunks : List (List Nat)) (idx s e : Nat) (r : List Nat),
      (idx ≤ s → idx ≤ e) → fastScan chunks idx s e = some r →
      r = jsSlice (List.flatten chunks) (s - idx) (e - idx) := by
  intro chunks
  induction chunks with
  | nil =>
    intro idx s e r _ h
    cases h
  | cons c rest ih =>
    intro idx s e r hinv h
    unfold fastScan at h
    by_cases h1 : idx = s ∧ idx + c.length = e
    · rw [if_pos h1] at h
      have hr : r = c := (Option.some.inj h).symm
      have e0 : s - idx = 0 := by omega
      have e1 : e - idx = c.length := by omega
      rw [hr, e0, e1, List.flatten_cons, jsSlice_append_split]
      rw [jsSlice_full, Nat.sub_self]
      simp [jsSlice]
    · rw [if_neg h1] at h
      by_cases h2 : s ≥ idx ∧ e ≤ idx + c.length
      · rw [if_pos h2] at h
        have hie : idx ≤ e := hinv h2.1
        have hcast1 : (s : Int) - (idx : Int) = ((s - idx : Nat) : Int) := by omega
        have hcast2 : (e : Int) - (idx : Int) = ((e - idx : Nat) : Int) := by omega
        rw [hcast1, hcast2, jsSliceInt_coe] at h
        have hr : r = jsSlice c (s - idx) (e - idx) := (Option.some.inj h).symm
        rw [hr, List.flatten_cons, jsSlice_append_split]
        have he0 : (e - idx) - c.length = 0 := by omega
        rw [he0]
        simp [jsSlice]
      · rw [if_neg h2] at h
        by_cases hs : idx + c.length ≤ s
        · have hinv2 : idx + c.length ≤ s → idx + c.length ≤ e := by
            intro _
            by_contra hee
            exact h2 ⟨by omega, by omega⟩
          have hr := ih (idx + c.length) s e r hinv2 h
          rw [hr, List.flatten_cons, jsSlice_append_split]
          rw [jsSlice_of_len_le c _ _ (by omega), List.nil_append]
          congr 1 <;> omega
        · rw [fastScan_none_of_lt rest (idx + c.length) s e (by omega)] at h
          cases h

theorem genCollect_eq :
    ∀ (chunks : List (List Nat)) (pos s e : Nat),
      genCollect chunks pos s e = jsSlice (List.flatten chunks) (s - pos) (e - pos) := by
  intro chunks
  induction chunks with
  | nil =>
    intro pos s e
    simp [genCollect, jsSlice]
  | cons c rest ih =>
    intro pos s e
    show (if s - pos < min c.length (e - pos) then
            jsSlice c (s - pos) (min c.length (e - pos)) else []) ++
          (if pos + c.length ≥ e then []
            else genCollect rest (pos + c.length) s e) = _
    rw [List.flatten_cons, jsSlice_append_split]
    congr 1
    · by_cases hc : s - pos < min c.length (e - pos)
      · rw [if_pos hc, jsSlice_min_right]
      · rw [if_neg hc]
        symm
        unfold jsSlice
        apply List.drop_eq_nil_of_le
        rw [List.length_take]
        omega
    · by_cases hbrk : pos + c.length ≥ e
      · rw [if_pos hbrk]
        symm
        have he0 : (e - pos) - c.length = 0 := by omega
        rw [he0]
        simp [jsSlice]
      · rw [if_neg hbrk, ih (pos + c.length) s e]
        congr 1 <;> omega

theorem getSubstring_eq_join :
    ∀ (chunks : List (List Nat)) (s e : Nat),
      getSubstring chunks s e = jsSlice (List.flatten chunks) s e := by
  intro chunks s e
  match chunks with
  | [c] =>
    rw [getSubstring_single]
    simp
  | [] =>
    simp [getSubstring, fastScan, genCollect, jsSlice]
  | c1 :: c2 :: rest =>
    cases hfs : fastScan (c1 :: c2 :: rest) 0 s e with
    | some r =>
      have hv := fastScan_some _ 0 s e r (fun _ => Nat.zero_le e) hfs
      have hg : getSubstring (c1 :: c2 :: rest) s e = r := by
        simp [getSubstring, hfs]
      rw [hg, hv]
      simp
    | none =>
      have hg : getSubstring (c1 :: c2 :: rest) s e =
          if s < e then genCollect (c1 :: c2 :: rest) 0 s e else [] := by
        simp [getSubstring, hfs]
      rw [hg]
      by_cases hse : s < e
      · rw [if_pos hse, genCollect_eq]
        simp
      · rw [if_neg hse]
        symm
        exact jsSlice_of_le _ _ _ (by omega)

/-! ## Positions and read congruence

The character step reads the chunk store only through `flush`, always with
the current position as the end offset, so two read functions agreeing on
the consumed prefix give identical behaviour. -/

theorem stepSwitch_fst_position (read : Nat → Nat → List Nat) (m : Core) (char : Nat) :
    (stepSwitch read m char).1.position = m.position := by
  unfold stepSwitch
  cases hs : m.state.state <;> dsimp only <;> repeat' split
  all_goals simp [up, flushD_fst_position, flushG_fst_position]

theorem stepAfter_fst_position (read : Nat → Nat → List Nat) (m : Core) (char : Nat) :
    (stepAfter read m char).1.position = m.position := by
  unfold stepAfter
  split
  · dsimp only
    split
    all_goals simp [down_fst_position, flushD_fst_position]
  · split
    all_goals rfl

theorem processCharG_fst_position (read : Nat → Nat → List Nat) (m : Core) (char : Nat) :
    (processCharG read m char).1.position = m.position + 1 := by
  show (stepAfter read (stepSwitch read m char).1 char).1.position + 1 = m.position + 1
  rw [stepAfter_fst_position, stepSwitch_fst_position]

theorem runChunk_fst_position (read : Nat → Nat → List Nat) :
    ∀ (cs : List Nat) (m : Core),
      (runChunk read m cs).1.position = m.position + cs.length := by
  intro cs
  induction cs with
  | nil =>
    intro m
    simp [runChunk_nil]
  | cons c cs ih =>
    intro m
    rw [runChunk_cons]
    dsimp only
    rw [ih, processCharG_fst_position]
    simp
    omega

theorem stepSwitch_congr (r1 r2 : Nat → Nat → List Nat) (m : Core) (char : Nat)
    (h : ∀ x : Core, x.position = m.position → flushD r1 x = flushD r2 x) :
    stepSwitch r1 m char = stepSwitch r2 m char := by
  unfold stepSwitch
  cases hs : m.state.state <;> dsimp only <;> repeat' split
  all_goals simp [h]

theorem stepAfter_congr (r1 r2 : Nat → Nat → List Nat) (m : Core) (char : Nat)
    (h : ∀ x : Core, x.position = m.position → flushD r1 x = flushD r2 x) :
    stepAfter r1 m char = stepAfter r2 m char := by
  unfold stepAfter
  split
  · dsimp only
    split
    all_goals simp [h]
  · split
    all_goals rfl

theorem processCharG_congr (r1 r2 : Nat → Nat → List Nat) (m : Core) (char : Nat)
    (h : ∀ x : Core, x.position = m.position → flushD r1 x = flushD r2 x) :
    processCharG r1 m char = processCharG r2 m char := by
  rw [processCharG_eq, processCharG_eq]
  rw [stepSwitch_congr r1 r2 m char h]
  rw [stepAfter_congr r1 r2 (stepSwitch r2 m char).1 char
    (fun x hx => h x (by rw [hx, stepSwitch_fst_position]))]

theorem runChunk_congr (r1 r2 : Nat → Nat → List Nat) :
    ∀ (cs : List Nat) (m : Core),
      (∀ s e, e ≤ m.position + cs.length → r1 s e = r2 s e) →
      runChunk r1 m cs = runChunk r2 m cs := by
  intro cs
  induction cs with
  | nil =>
    intro m _
    rfl
  | cons c cs ih =>
    intro m h
    rw [runChunk_cons, runChunk_cons]
    have hstep : processCharG r1 m c = processCharG r2 m c :=
      processCharG_congr r1 r2 m c (fun x hx => by
        unfold flushD flushG
        rw [hx, h x.start m.position (by simp)])
    rw [hstep, ih (processCharG r2 m c).1 (fun s e he => h s e (by
      rw [processCharG_fst_position] at he
      simp only [List.length_cons]
      omega))]

/-! ## The document-level machine

The chunk store of the real machine is only ever read within the consumed
prefix, which is a prefix of the final document `S`; hence the whole run is
a fold of abstract operations — characters, write-boundary flushes, the
stream end — whose reads go through `jsSlice S`. -/

inductive SOp where
  | chr (c : Nat)
  | fl
  | fin
deriving DecidableEq, Repr

def applyOp (S : List Nat) (m : Core) : SOp → Core × List Cmd
  | SOp.chr c => processCharG (jsSlice S) m c
  | SOp.fl => ((flushD (jsSlice S) m).1, (flushD (jsSlice S) m).2.1)
  | SOp.fin =>
    if m.state.locked then
      (initCore,
        (flushG (jsSlice S) { m with state := { m.state with locked := false } }
          (m.uncorfinmed_start.getD 0) m.position).2.1)
    else (initCore, [])

def runOps (S : List Nat) : Core → List SOp → Core × List Cmd
  | m, [] => (m, [])
  | m, op :: ops =>
    let s := applyOp S m op
    let r := runOps S s.1 ops
    (r.1, s.2 ++ r.2)

/-- The operation stream of writing each fragment (characters, then the
write-boundary flush) and ending the stream. -/
def opsOfParts (parts : List (List Nat)) : List SOp :=
  parts.foldr (fun p acc => (p.map SOp.chr ++ [SOp.fl]) ++ acc) [SOp.fin]

def opsOfPartsNF (parts : List (List Nat)) : List SOp :=
  parts.foldr (fun p acc => (p.map SOp.chr ++ [SOp.fl]) ++ acc) []

def chrOps (cs : List Nat) : List SOp := cs.map SOp.chr

theorem runOps_nil (S : List Nat) (m : Core) : runOps S m [] = (m, []) := rfl

theorem runOps_cons (S : List Nat) (m : Core) (op : SOp) (ops : List SOp) :
    runOps S m (op :: ops) =
      ((runOps S (applyOp S m op).1 ops).1,
        (applyOp S m op).2 ++ (runOps S (applyOp S m op).1 ops).2) :=
  rfl

theorem runOps_append (S : List Nat) :
    ∀ (a b : List SOp) (m : Core),
      runOps S m (a ++ b) =
        ((runOps S (runOps S m a).1 b).1,
          (runOps S m a).2 ++ (runOps S (runOps S m a).1 b).2) := by
  intro a
  induction a with
  | nil =>
    intro b m
    simp [runOps_nil]
  | cons op a ih =>
    intro b m
    rw [List.cons_append, runOps_cons, ih]
    simp [runOps_cons, List.append_assoc]

theorem runOps_chrOps (S : List Nat) :
    ∀ (cs : List Nat) (m : Core),
      runOps S m (chrOps cs) = runChunk (jsSlice S) m cs := by
  intro cs
  induction cs with
  | nil => intro m; rfl
  | cons c cs ih =>
    intro m
    rw [show chrOps (c :: cs) = SOp.chr c :: chrOps cs from rfl, runOps_cons,
      runChunk_cons]
    dsimp only [applyOp]
    rw [ih]

theorem opsOfParts_eq (parts : List (List Nat)) :
    opsOfParts parts = opsOfPartsNF parts ++ [SOp.fin] := by
  induction parts with
  | nil => rfl
  | cons p parts ih =>
    show (p.map SOp.chr ++ [SOp.fl]) ++ opsOfParts parts =
      ((p.map SOp.chr ++ [SOp.fl]) ++ opsOfPartsNF parts) ++ [SOp.fin]
    rw [ih]
    simp [List.append_assoc]

theorem opsOfPartsNF_cons (p : List Nat) (parts : List (List Nat)) :
    opsOfPartsNF (p :: parts) = (chrOps p ++ [SOp.fl]) ++ opsOfPartsNF parts :=
  rfl

theorem jsSlice_prefix_eq (T rest S : List Nat) (hTS : T ++ rest = S) (s e : Nat)
    (he : e ≤ T.length) : jsSlice T s e = jsSlice S s e := by
  unfold jsSlice
  rw [← hTS, List.take_append_of_le_length he]

theorem write_eq_fow (m : Inst) (p : List Nat)
    (hfow : m.options.flush_on_write = true) :
    write m p =
      ({ m with
          chunks := m.chunks ++ [p],
          core := (flushD (getSubstring (m.chunks ++ [p]))
            (runChunk (getSubstring (m.chunks ++ [p])) m.core p).1).1 },
        (runChunk (getSubstring (m.chunks ++ [p])) m.core p).2 ++
          (flushD (getSubstring (m.chunks ++ [p]))
            (runChunk (getSubstring (m.chunks ++ [p])) m.core p).1).2.1) := by
  simp [write, hfow]

theorem write_bridge (S : List Nat) (m : Inst) (p : List Nat)
    (hfow : m.options.flush_on_write = true)
    (hpos : m.core.position = (List.flatten m.chunks).length)
    (hpre : ∃ rest, (List.flatten m.chunks ++ p) ++ rest = S) :
    (write m p).1.core = (runOps S m.core (chrOps p ++ [SOp.fl])).1 ∧
    (write m p).2 = (runOps S m.core (chrOps p ++ [SOp.fl])).2 ∧
    (write m p).1.chunks = m.chunks ++ [p] ∧
    (write m p).1.options = m.options ∧
    (write m p).1.core.position = m.core.position + p.length := by
  obtain ⟨rest, hrest⟩ := hpre
  have hagree : ∀ s e, e ≤ m.core.position + p.length →
      getSubstring (m.chunks ++ [p]) s e = jsSlice S s e := by
    intro s e he
    rw [getSubstring_eq_join]
    have hT : List.flatten (m.chunks ++ [p]) = List.flatten m.chunks ++ p := by
      simp
    rw [hT]
    exact jsSlice_prefix_eq _ rest S hrest s e (by rw [List.length_append]; omega)
  have heq := write_eq_fow m p hfow
  have hrc : runChunk (getSubstring (m.chunks ++ [p])) m.core p =
      runChunk (jsSlice S) m.core p :=
    runChunk_congr _ _ p m.core (fun s e he => hagree s e he)
  have hpos1 : (runChunk (jsSlice S) m.core p).1.position =
      m.core.position + p.length := runChunk_fst_position _ p m.core
  have hfl : flushD (getSubstring (m.chunks ++ [p])) (runChunk (jsSlice S) m.core p).1 =
      flushD (jsSlice S) (runChunk (jsSlice S) m.core p).1 := by
    unfold flushD flushG
    rw [hagree _ _ (by rw [hpos1])]
  rw [heq, hrc, hfl]
  rw [runOps_append, runOps_chrOps]
  refine ⟨?_, ?_, rfl, rfl, ?_⟩
  · simp [runOps_cons, runOps_nil, applyOp]
  · simp [runOps_cons, runOps_nil, applyOp]
  · show (flushD (jsSlice S) (runChunk (jsSlice S) m.core p).1).1.position = _
    rw [flushD_fst_position, hpos1]

theorem runW_bridge (S : List Nat) :
    ∀ (parts : List (List Nat)) (m : Inst),
      m.options.flush_on_write = true →
      m.core.position = (List.flatten m.chunks).length →
      (∃ rest, (List.flatten m.chunks ++ List.flatten parts) ++ rest = S) →
      (runW m parts).1.core = (runOps S m.core (opsOfPartsNF parts)).1 ∧
      (runW m parts).2 = (runOps S m.core (opsOfPartsNF parts)).2 ∧
      (runW m parts).1.chunks = m.chunks ++ parts ∧
      (runW m parts).1.options = m.options ∧
      (runW m parts).1.core.position = m.core.position + (List.flatten parts).length := by
  intro parts
  induction parts with
  | nil =>
    intro m _ _ _
    exact ⟨rfl, rfl, by simp [runW], rfl, by simp [runW]⟩
  | cons p parts ih =>
    intro m hfow hpos hpre
    obtain ⟨rest, hrest⟩ := hpre
    have hw := write_bridge S m p hfow hpos
      ⟨List.flatten parts ++ rest, by rw [← hrest]; simp [List.append_assoc]⟩
    have hfow1 : (write m p).1.options.flush_on_write = true := by
      rw [hw.2.2.2.1]
      exact hfow
    have hpos1 : (write m p).1.core.position =
        (List.flatten (write m p).1.chunks).length := by
      rw [hw.2.2.2.2, hw.2.2.1,
        show List.flatten (m.chunks ++ [p]) = List.flatten m.chunks ++ p by simp,
        List.length_append]
      omega
    have hih := ih (write m p).1 hfow1 hpos1
      ⟨rest, by
        rw [hw.2.2.1, ← hrest]
        simp [List.append_assoc]⟩
    have hsplit : runW m (p :: parts) =
        ((runW (write m p).1 parts).1, (write m p).2 ++ (runW (write m p).1 parts).2) :=
      rfl
    refine ⟨?_, ?_, ?_, ?_, ?_⟩
    · rw [hsplit]
      dsimp only
      rw [hih.1, hw.1, opsOfPartsNF_cons]
      simp [runOps_append, runOps_cons, runOps_nil]
    · rw [hsplit]
      dsimp only
      rw [hih.2.1, hw.1, hw.2.1, opsOfPartsNF_cons]
      simp [runOps_append, runOps_cons, runOps_nil, List.append_assoc]
    · rw [hsplit]
      dsimp only
      rw [hih.2.2.1, hw.2.2.1]
      simp
    · rw [hsplit]
      dsimp only
      rw [hih.2.2.2.1, hw.2.2.2.1]
    · rw [hsplit]
      dsimp only
      rw [hih.2.2.2.2, hw.2.2.2.2, List.flatten_cons, List.length_append]
      omega

theorem endStream_bridge (S : List Nat) (m : Inst)
    (hpos : m.core.position ≤ (List.flatten m.chunks).length)
    (hpre : ∃ rest, List.flatten m.chunks ++ rest = S) :
    (endStream m).2 = (applyOp S m.core SOp.fin).2 := by
  obtain ⟨rest, hrest⟩ := hpre
  simp only [endStream, applyOp]
  by_cases hl : m.core.state.locked = true
  · simp only [if_pos hl]
    unfold flushG
    rw [getSubstring_eq_join, jsSlice_prefix_eq _ rest S hrest _ _ (by simpa using hpos)]
  · simp only [if_neg hl]

theorem runDoc_eq_runOps (parts : List (List Nat)) :
    runDoc parts = (runOps (List.flatten parts) initCore (opsOfParts parts)).2 := by
  have hb := runW_bridge (List.flatten parts) parts initInst rfl
    (by simp [initInst, initCore]) ⟨[], by simp [initInst]⟩
  show (runW initInst parts).2 ++ (endStream (runW initInst parts).1).2 = _
  rw [hb.2.1]
  rw [endStream_bridge (List.flatten parts) (runW initInst parts).1
    (by rw [hb.2.2.2.2, hb.2.2.1]; simp [initInst, initCore])
    ⟨[], by rw [hb.2.2.1]; simp [initInst]⟩]
  rw [hb.1, opsOfParts_eq, runOps_append]
  simp [runOps_cons, runOps_nil, initInst]

/-! ## Coalescing adjacent text appends

Two command traces are equivalent as rendered output when they agree after
merging adjacent `appendText` commands (adjacent appends necessarily target
the same open element). -/

def mcons : Cmd → List Cmd → List Cmd
  | Cmd.appendText s, Cmd.appendText t :: rest => Cmd.appendText (s ++ t) :: rest
  | c, rest => c :: rest

def mergeApp (l : List Cmd) : List Cmd := l.foldr mcons []

/-- `appendText` when the text is non-empty, nothing otherwise — the shape of
every flush emission. -/
def appOpt (l : List Nat) : List Cmd :=
  if l.length = 0 then [] else [Cmd.appendText l]

theorem mergeApp_append (X Y : List Cmd) :
    mergeApp (X ++ Y) = X.foldr mcons (mergeApp Y) := by
  unfold mergeApp
  rw [List.foldr_append]

theorem foldr_mcons_mcons (c : Cmd) (M R : List Cmd) :
    List.foldr mcons R (mcons c M) = mcons c (List.foldr mcons R M) := by
  cases c with
  | appendText s =>
    cases M with
    | nil => rfl
    | cons d M2 =>
      cases d with
      | appendText t =>
        show mcons (Cmd.appendText (s ++ t)) (List.foldr mcons R M2) =
          mcons (Cmd.appendText s) (mcons (Cmd.appendText t) (List.foldr mcons R M2))
        generalize List.foldr mcons R M2 = X
        cases X with
        | nil => rfl
        | cons x X2 =>
          cases x with
          | appendText u =>
            show Cmd.appendText (s ++ t ++ u) :: X2 = Cmd.appendText (s ++ (t ++ u)) :: X2
            rw [List.append_assoc]
          | openBlock tag => rfl
          | closeBlock => rfl
          | insertHr => rfl
      | openBlock tag => rfl
      | closeBlock => rfl
      | insertHr => rfl
  | openBlock tag => rfl
  | closeBlock => rfl
  | insertHr => rfl

theorem foldr_mcons_graft (X R : List Cmd) :
    List.foldr mcons R X = List.foldr mcons R (mergeApp X) := by
  induction X with
  | nil => rfl
  | cons c X ih =>
    show mcons c (List.foldr mcons R X) = List.foldr mcons R (mcons c (mergeApp X))
    rw [ih, foldr_mcons_mcons]

theorem mergeApp_congr_left (X Y : List Cmd) (X2 : List Cmd)
    (h : mergeApp X = mergeApp X2) : mergeApp (X ++ Y) = mergeApp (X2 ++ Y) := by
  rw [mergeApp_append, mergeApp_append, foldr_mcons_graft X, foldr_mcons_graft X2, h]

theorem mergeApp_congr_right (X Y Y2 : List Cmd)
    (h : mergeApp Y = mergeApp Y2) : mergeApp (X ++ Y) = mergeApp (X ++ Y2) := by
  rw [mergeApp_append, mergeApp_append, h]

theorem mergeApp_appOpt_pair (d e : List Nat) :
    mergeApp (appOpt d ++ [Cmd.appendText e]) = mergeApp [Cmd.appendText (d ++ e)] := by
  by_cases hd : d.length = 0
  · have hd0 : d = [] := by
      cases d
      · rfl
      · simp at hd
    rw [hd0]
    rfl
  · unfold appOpt
    rw [if_neg hd]
    rfl

/-! ## Machine invariant and flush bisimulation -/

/-- The reachable-state invariant used by the streaming-invariance proof: the
confirmed cursor never passes the position, the lock flag marks exactly the
two block-recognizer states, and while scanning a heading run the unconfirmed
cursor sits on the last marker seen. -/
def Inv (c : Core) : Prop :=
  c.start ≤ c.position ∧
  (c.state.locked = true ↔
    (c.state.state = PState.SEQUENCE_HEADING ∨ c.state.state = PState.SEQUENCE_HR)) ∧
  (c.state.state = PState.SEQUENCE_HEADING →
    c.uncorfinmed_start = some (c.position - 1) ∧ 1 ≤ c.position)

/-- `a` is the state of a run that has flushed the pending text which the
run of `b` still holds (`b.start .. a.start`); everything else agrees, and
while locked the two runs coincide exactly. -/
def Rrel (a b : Core) : Prop :=
  a.position = b.position ∧ a.stack = b.stack ∧ a.state = b.state ∧
  b.start ≤ a.start ∧
  (a.state.locked = true → a.start = b.start ∧
    a.uncorfinmed_start = b.uncorfinmed_start)

theorem Rrel_refl (x : Core) : Rrel x x :=
  ⟨rfl, rfl, rfl, le_rfl, fun _ => ⟨rfl, rfl⟩⟩

theorem Rrel_eq_of_locked (a b : Core) (hR : Rrel a b)
    (hl : a.state.locked = true) : a = b := by
  obtain ⟨h1, h2, h3, _, h5⟩ := hR
  obtain ⟨hs, hu⟩ := h5 hl
  cases a
  cases b
  simp_all

theorem flushD_fst_cases (read : Nat → Nat → List Nat) (x : Core) :
    (flushD read x).1 = x ∨
      (flushD read x).1 = { x with start := x.position, uncorfinmed_start := none } := by
  unfold flushD flushG
  split
  · left
    rfl
  · split
    · left
      rfl
    · right
      rfl

theorem Inv_flushD (read : Nat → Nat → List Nat) (x : Core) (hI : Inv x) :
    Inv (flushD read x).1 := by
  rcases flushD_fst_cases read x with h | h <;> rw [h]
  · exact hI
  · obtain ⟨h1, h2, h3⟩ := hI
    refine ⟨le_rfl, h2, fun hh => ?_⟩
    exfalso
    -- in the heading state the machine is locked, so the flush cannot fire
    have hl : x.state.locked = true := h2.2 (Or.inl hh)
    have hfl : flushD read x = (x, [], false) :=
      flushG_of_locked read x x.start x.position hl
    rw [hfl] at h
    have hu := congrArg Core.uncorfinmed_start h
    simp only at hu
    rw [(h3 hh).1] at hu
    simp at hu

theorem jsSlice_nil_start_eq (S : List Nat) (s p : Nat) (hsp : s ≤ p)
    (hp : p ≤ S.length) (h : jsSlice S s p = []) : s = p := by
  have hl := congrArg List.length h
  simp only [jsSlice, List.length_drop, List.length_take, List.length_nil] at hl
  omega

theorem flush_bisim (S : List Nat) (a b : Core) (hR : Rrel a b)
    (hsp : a.start ≤ a.position)
    (hl : a.state.locked = false) (hS : a.position ≤ S.length) :
    Rrel (flushD (jsSlice S) a).1 (flushD (jsSlice S) b).1 ∧
    (flushD (jsSlice S) a).1.start = (flushD (jsSlice S) b).1.start ∧
    mergeApp (appOpt (jsSlice S b.start a.start) ++ (flushD (jsSlice S) a).2.1) =
      mergeApp ((flushD (jsSlice S) b).2.1) := by
  obtain ⟨hpos, hstk, hst, hble, _⟩ := hR
  have hlb : b.state.locked = false := by rw [← hst]; exact hl
  have hconcat : jsSlice S b.start a.position =
      jsSlice S b.start a.start ++ jsSlice S a.start a.position :=
    (jsSlice_concat S b.start a.start a.position hble hsp).symm
  by_cases he : jsSlice S a.start a.position = []
  · have hastart : a.start = a.position := jsSlice_nil_start_eq S _ _ hsp hS he
    have hfa : flushD (jsSlice S) a = (a, [], false) :=
      flushG_of_empty _ a _ _ he
    by_cases hd : jsSlice S b.start a.start = []
    · have hfb : flushD (jsSlice S) b = (b, [], false) :=
        flushG_of_empty _ b _ _ (by rw [← hpos, hconcat, hd, he]; rfl)
      rw [hfa, hfb]
      have hbstart : b.start = a.start :=
        jsSlice_nil_start_eq S _ _ hble (le_trans hsp hS) hd
      refine ⟨⟨hpos, hstk, hst, hble, fun hc =>
        absurd (show a.state.locked = true from hc) (by simp [hl])⟩, hbstart.symm, ?_⟩
      rw [hd]
      rfl
    · have hfb : flushD (jsSlice S) b =
          ({ b with start := b.position, uncorfinmed_start := none },
            [Cmd.appendText (jsSlice S b.start b.position)], true) :=
        flushG_of_fire _ b _ _ hlb (by
          rw [← hpos, hconcat, he, List.append_nil]
          exact hd)
      rw [hfa, hfb]
      have hread : jsSlice S b.start b.position = jsSlice S b.start a.start := by
        rw [← hpos, hconcat, he, List.append_nil]
      refine ⟨⟨hpos, hstk, hst, ?_, fun hc =>
        absurd (show a.state.locked = true from hc) (by simp [hl])⟩, ?_, ?_⟩
      · show b.position ≤ a.start
        omega
      · show a.start = b.position
        omega
      · show mergeApp (appOpt (jsSlice S b.start a.start) ++ []) =
          mergeApp [Cmd.appendText (jsSlice S b.start b.position)]
        rw [hread, List.append_nil]
        unfold appOpt
        rw [if_neg (by simp [hd])]
  · have hfa : flushD (jsSlice S) a =
        ({ a with start := a.position, uncorfinmed_start := none },
          [Cmd.appendText (jsSlice S a.start a.position)], true) :=
      flushG_of_fire _ a _ _ hl he
    have hfb : flushD (jsSlice S) b =
        ({ b with start := b.position, uncorfinmed_start := none },
          [Cmd.appendText (jsSlice S b.start b.position)], true) :=
      flushG_of_fire _ b _ _ hlb (by
        rw [← hpos, hconcat]
        intro hcc
        exact he (List.append_eq_nil.mp hcc).2)
    rw [hfa, hfb]
    refine ⟨⟨hpos, hstk, hst, le_of_eq hpos.symm, fun hc =>
      absurd (show a.state.locked = true from hc) (by simp [hl])⟩, hpos, ?_⟩
    show mergeApp (appOpt (jsSlice S b.start a.start) ++
        [Cmd.appendText (jsSlice S a.start a.position)]) =
      mergeApp [Cmd.appendText (jsSlice S b.start b.position)]
    rw [← hpos, hconcat]
    exact mergeApp_appOpt_pair _ _

theorem appOpt_nil : appOpt [] = [] := rfl

theorem mergeApp_appOpt_appOpt (d e : List Nat) :
    mergeApp (appOpt d ++ appOpt e) = mergeApp (appOpt (d ++ e)) := by
  by_cases he : e.length = 0
  · have he0 : e = [] := List.eq_nil_of_length_eq_zero he
    rw [he0]
    simp [appOpt_nil]
  · have h1 : appOpt e = [Cmd.appendText e] := by
      unfold appOpt
      rw [if_neg he]
    have h2 : appOpt (d ++ e) = [Cmd.appendText (d ++ e)] := by
      unfold appOpt
      rw [if_neg (by rw [List.length_append]; omega)]
    rw [h1, h2]
    exact mergeApp_appOpt_pair d e

theorem Core_eq_mod_unc (x y : Core) (h1 : x.position = y.position)
    (h2 : x.start = y.start) (h3 : x.stack = y.stack) (h4 : x.state = y.state) :
    x = { y with uncorfinmed_start := x.uncorfinmed_start } := by
  cases x
  cases y
  simp_all

theorem Rrel_bump (x y : Core) (h : Rrel x y) :
    Rrel { x with position := x.position + 1 } { y with position := y.position + 1 } := by
  obtain ⟨h1, h2, h3, h4, h5⟩ := h
  exact ⟨by rw [show ({ x with position := x.position + 1 } : Core).position
      = x.position + 1 from rfl, h1], h2, h3, h4, h5⟩

theorem down_congr (x y : Core) (h : x.stack = y.stack) :
    (down x).1.stack = (down y).1.stack ∧ (down x).2 = (down y).2 := by
  unfold down
  by_cases hlen : x.stack.length > 1
  · rw [if_pos hlen, if_pos (by rw [← h]; exact hlen)]
    exact ⟨by show x.stack.dropLast = y.stack.dropLast; rw [h], rfl⟩
  · rw [if_neg hlen, if_neg (by rw [← h]; exact hlen)]
    exact ⟨h, rfl⟩

theorem down_fst_unc (m : Core) :
    (down m).1.uncorfinmed_start = m.uncorfinmed_start := by
  unfold down
  split <;> rfl

theorem isModifierChar_ne_newline (c : Nat) (h : isModifierChar c = true) :
    c ≠ NEWLINE := by
  intro hn
  subst hn
  simp [isModifierChar, NEWLINE, ASTERISK, UNDERSCORE, TILDE] at h

theorem stepSwitch_normal_skip1 (read : Nat → Nat → List Nat) (m : Core) (char : Nat)
    (h : m.state.state = PState.NORMAL) (hls : m.state.line_start = true)
    (hH : char ≠ HASH) (hhr : ¬(char = UNDERSCORE ∨ char = ASTERISK ∨ char = DASH)) :
    stepSwitch read m char = (m, []) := by
  simp only [stepSwitch, h]
  rw [if_pos hls, if_neg hH, if_neg hhr]

theorem stepSwitch_normal_mod (read : Nat → Nat → List Nat) (m : Core) (char : Nat)
    (h : m.state.state = PState.NORMAL) (hls : m.state.line_start = false)
    (hmod : isModifierChar char = true) :
    stepSwitch read m char =
      ({ (flushD read m).1 with
          state := { (flushD read m).1.state with
            state := PState.SEQUENCE_MODIFIER,
            modifierStack :=
              ModEntry.mk char 1 none :: (flushD read m).1.state.modifierStack },
          uncorfinmed_start := some ((flushD read m).1.position + 1) },
        (flushD read m).2.1) := by
  simp only [stepSwitch, h]
  rw [if_neg (by simp [hls]), if_pos hmod]

theorem stepSwitch_normal_code (read : Nat → Nat → List Nat) (m : Core) (char : Nat)
    (h : m.state.state = PState.NORMAL) (hls : m.state.line_start = false)
    (hmod : isModifierChar char = false) (hbt : char = BACKTICK) :
    stepSwitch read m char =
      ({ (flushD read m).1 with
          state := { (flushD read m).1.state with state := PState.CODE },
          uncorfinmed_start := some ((flushD read m).1.position + 1) },
        (flushD read m).2.1) := by
  simp only [stepSwitch, h]
  rw [if_neg (by simp [hls]), if_neg (by simp [hmod]), if_pos hbt]

theorem stepSwitch_normal_skip2 (read : Nat → Nat → List Nat) (m : Core) (char : Nat)
    (h : m.state.state = PState.NORMAL) (hls : m.state.line_start = false)
    (hmod : isModifierChar char = false) (hbt : char ≠ BACKTICK) :
    stepSwitch read m char = (m, []) := by
  simp only [stepSwitch, h]
  rw [if_neg (by simp [hls]), if_neg (by simp [hmod]), if_neg hbt]

theorem stepSwitch_code (read : Nat → Nat → List Nat) (m : Core) (char : Nat)
    (h : m.state.state = PState.CODE) : stepSwitch read m char = (m, []) := by
  simp only [stepSwitch, h]

theorem stepSwitch_code_block (read : Nat → Nat → List Nat) (m : Core) (char : Nat)
    (h : m.state.state = PState.CODE_BLOCK) : stepSwitch read m char = (m, []) := by
  simp only [stepSwitch, h]

theorem stepSwitch_modifier_cont_nil (read : Nat → Nat → List Nat) (m : Core) (char : Nat)
    (h : m.state.state = PState.SEQUENCE_MODIFIER) (hmod : isModifierChar char = true)
    (hns : m.state.modifierStack = []) : stepSwitch read m char = (m, []) := by
  simp only [stepSwitch, h]
  rw [if_pos hmod, hns]

theorem stepSwitch_modifier_cont_cons (read : Nat → Nat → List Nat) (m : Core)
    (char : Nat) (last : ModEntry) (rest : List ModEntry)
    (h : m.state.state = PState.SEQUENCE_MODIFIER) (hmod : isModifierChar char = true)
    (hns : m.state.modifierStack = last :: rest) :
    stepSwitch read m char =
      ({ m with
          uncorfinmed_start := optAdd m.uncorfinmed_start 1,
          state := { m.state with modifierStack :=
            (if last.count = 1 ∧ char = last.char then
              { last with count := last.count + 1 } :: rest
            else
              ModEntry.mk char 1 none :: last :: rest) } }, []) := by
  simp only [stepSwitch, h]
  rw [if_pos hmod, hns]

theorem stepSwitch_hr_abort_none (read : Nat → Nat → List Nat) (m : Core) (char : Nat)
    (h : m.state.state = PState.SEQUENCE_HR)
    (hc : ¬(some char = m.state.hr_char ∨ char = SPACE))
    (hchar : m.state.hr_char = none)
    (hfire : ¬(m.state.hr_count > 2 ∧ char = NEWLINE)) :
    stepSwitch read m char =
      ({ m with
          state := { m.state with
            state := PState.NORMAL, locked := false,
            hr_char := none, hr_count := 0 } }, []) := by
  simp only [stepSwitch, h]
  rw [if_neg hc]
  rw [if_neg hfire, hchar]

theorem stepAfter_newline_hc0 (read : Nat → Nat → List Nat) (m : Core)
    (hh : ¬ m.state.heading_count > 0) :
    stepAfter read m NEWLINE =
      ({ m with state := { m.state with line_start := true, modifierStack := [] } },
        []) := by
  unfold stepAfter
  rw [if_pos rfl]
  dsimp only
  rw [if_neg hh]

theorem stepAfter_newline_hcpos (read : Nat → Nat → List Nat) (m : Core)
    (hh : m.state.heading_count > 0) :
    stepAfter read m NEWLINE =
      ({ (down (flushD read
            { m with state :=
                { m.state with line_start := true, modifierStack := [] } }).1).1 with
          state := { (down (flushD read
            { m with state :=
                { m.state with line_start := true, modifierStack := [] } }).1).1.state with
            heading_count := 0 } },
        (flushD read
            { m with state :=
                { m.state with line_start := true, modifierStack := [] } }).2.1 ++
          (down (flushD read
            { m with state :=
                { m.state with line_start := true, modifierStack := [] } }).1).2) := by
  unfold stepAfter
  rw [if_pos rfl]
  dsimp only
  rw [if_pos hh]

theorem flushdown_bisim (S : List Nat) (u v : Core)
    (hR : Rrel u v) (hsp : u.start ≤ u.position) (hl : u.state.locked = false)
    (hS : u.position ≤ S.length) :
    Rrel ({ (down (flushD (jsSlice S) u).1).1 with
             state := { (down (flushD (jsSlice S) u).1).1.state with
               heading_count := 0 } })
         ({ (down (flushD (jsSlice S) v).1).1 with
             state := { (down (flushD (jsSlice S) v).1).1.state with
               heading_count := 0 } }) ∧
    ({ (down (flushD (jsSlice S) v).1).1 with
        state := { (down (flushD (jsSlice S) v).1).1.state with
          heading_count := 0 } } : Core).start =
      ({ (down (flushD (jsSlice S) u).1).1 with
        state := { (down (flushD (jsSlice S) u).1).1.state with
          heading_count := 0 } } : Core).start ∧
    mergeApp (appOpt (jsSlice S v.start u.start) ++
        ((flushD (jsSlice S) u).2.1 ++ (down (flushD (jsSlice S) u).1).2)) =
      mergeApp ((flushD (jsSlice S) v).2.1 ++ (down (flushD (jsSlice S) v).1).2) := by
  obtain ⟨hRf, hstarts, hmerge⟩ := flush_bisim S u v hR hsp hl hS
  obtain ⟨hfpos, hfstk, hfst, hfble, _⟩ := hRf
  have hdc := down_congr (flushD (jsSlice S) u).1 (flushD (jsSlice S) v).1 hfstk
  have hds : (down (flushD (jsSlice S) u).1).1.start =
      (down (flushD (jsSlice S) v).1).1.start := by
    rw [down_fst_start, down_fst_start, hstarts]
  have hlA : (down (flushD (jsSlice S) u).1).1.state.locked = false := by
    rw [down_fst_state, flushD_fst_state]
    exact hl
  refine ⟨⟨?_, hdc.1, ?_, ?_, ?_⟩, ?_, ?_⟩
  · show (down (flushD (jsSlice S) u).1).1.position =
      (down (flushD (jsSlice S) v).1).1.position
    rw [down_fst_position, down_fst_position, hfpos]
  · show ({ (down (flushD (jsSlice S) u).1).1.state with
        heading_count := 0 } : MachineState) =
      { (down (flushD (jsSlice S) v).1).1.state with heading_count := 0 }
    rw [down_fst_state, down_fst_state, hfst]
  · show (down (flushD (jsSlice S) v).1).1.start ≤
      (down (flushD (jsSlice S) u).1).1.start
    rw [hds]
  · intro hc
    exact absurd (show (down (flushD (jsSlice S) u).1).1.state.locked = true from hc)
      (by simp [hlA])
  · show (down (flushD (jsSlice S) v).1).1.start =
      (down (flushD (jsSlice S) u).1).1.start
    rw [hds]
  · rw [hdc.2, ← List.append_assoc]
    exact mergeApp_congr_left _ _ _ hmerge

theorem tail_bisim (S : List Nat) (x y : Core) (ch : Nat)
    (hpos : x.position = y.position) (hstk : x.stack = y.stack)
    (hst : x.state = y.state)
    (hble : y.start ≤ x.start) (hl : x.state.locked = false)
    (hsp : x.start ≤ x.position) (hS : x.position ≤ S.length) :
    Rrel (stepAfter (jsSlice S) x ch).1 (stepAfter (jsSlice S) y ch).1 ∧
    mergeApp (appOpt (jsSlice S y.start x.start) ++ (stepAfter (jsSlice S) x ch).2) =
      mergeApp ((stepAfter (jsSlice S) y ch).2 ++
        appOpt (jsSlice S (stepAfter (jsSlice S) y ch).1.start
          (stepAfter (jsSlice S) x ch).1.start)) := by
  by_cases hn : ch = NEWLINE
  · subst hn
    by_cases hh : x.state.heading_count > 0
    · have hhy : y.state.heading_count > 0 := by rw [← hst]; exact hh
      rw [stepAfter_newline_hcpos _ x hh, stepAfter_newline_hcpos _ y hhy]
      have hfd := flushdown_bisim S
        { x with state := { x.state with line_start := true, modifierStack := [] } }
        { y with state := { y.state with line_start := true, modifierStack := [] } }
        ⟨hpos, hstk,
          congrArg (fun s : MachineState =>
            { s with line_start := true, modifierStack := ([] : List ModEntry) }) hst,
          hble,
          fun hc => absurd (show x.state.locked = true from hc) (by simp [hl])⟩
        hsp hl hS
      refine ⟨hfd.1, ?_⟩
      rw [hfd.2.1, jsSlice_refl, appOpt_nil, List.append_nil]
      exact hfd.2.2
    · have hhy : ¬ y.state.heading_count > 0 := by rw [← hst]; exact hh
      rw [stepAfter_newline_hc0 _ x hh, stepAfter_newline_hc0 _ y hhy]
      refine ⟨⟨hpos, hstk, ?_, hble, ?_⟩, ?_⟩
      · exact congrArg (fun s : MachineState =>
          { s with line_start := true, modifierStack := ([] : List ModEntry) }) hst
      · intro hc
        exact absurd (show x.state.locked = true from hc) (by simp [hl])
      · show mergeApp (appOpt (jsSlice S y.start x.start) ++ []) =
          mergeApp ([] ++ appOpt (jsSlice S y.start x.start))
        simp
  · rw [stepAfter_of_not_newline _ x ch hn, stepAfter_of_not_newline _ y ch hn]
    by_cases hls : x.state.line_start = true
    · rw [if_pos hls, if_pos (show y.state.line_start = true by rw [← hst]; exact hls)]
      refine ⟨⟨hpos, hstk, ?_, hble, ?_⟩, ?_⟩
      · exact congrArg (fun s : MachineState => { s with line_start := false }) hst
      · intro hc
        exact absurd (show x.state.locked = true from hc) (by simp [hl])
      · show mergeApp (appOpt (jsSlice S y.start x.start) ++ []) =
          mergeApp ([] ++ appOpt (jsSlice S y.start x.start))
        simp
    · rw [if_neg hls, if_neg (show ¬ y.state.line_start = true by rw [← hst]; exact hls)]
      exact ⟨⟨hpos, hstk, hst, hble,
        fun hc => absurd (show x.state.locked = true from hc) (by simp [hl])⟩,
        by simp⟩

theorem entry_bisim (S : List Nat) (a b : Core) (ch : Nat)
    (hR : Rrel a b) (hl : a.state.locked = false)
    (hsp : a.start ≤ a.position) (hS : a.position ≤ S.length)
    (g : Core → Core)
    (hg : ∀ x u, g { x with uncorfinmed_start := u } = g x)
    (hch : ch ≠ NEWLINE)
    (ea : stepSwitch (jsSlice S) a ch =
      (g (flushD (jsSlice S) a).1, (flushD (jsSlice S) a).2.1))
    (eb : stepSwitch (jsSlice S) b ch =
      (g (flushD (jsSlice S) b).1, (flushD (jsSlice S) b).2.1)) :
    (processCharG (jsSlice S) a ch).1 = (processCharG (jsSlice S) b ch).1 ∧
    mergeApp (appOpt (jsSlice S b.start a.start) ++ (processCharG (jsSlice S) a ch).2) =
      mergeApp ((processCharG (jsSlice S) b ch).2) := by
  obtain ⟨hRf, hstarts, hmerge⟩ := flush_bisim S a b hR hsp hl hS
  obtain ⟨hfpos, hfstk, hfst, hfble, _⟩ := hRf
  have hgs : g (flushD (jsSlice S) a).1 = g (flushD (jsSlice S) b).1 := by
    rw [Core_eq_mod_unc (flushD (jsSlice S) a).1 (flushD (jsSlice S) b).1 hfpos
      hstarts hfstk hfst, hg]
  have hA : processCharG (jsSlice S) a ch =
      ({ (stepAfter (jsSlice S) (g (flushD (jsSlice S) a).1) ch).1 with
          position :=
            (stepAfter (jsSlice S) (g (flushD (jsSlice S) a).1) ch).1.position + 1 },
        (flushD (jsSlice S) a).2.1 ++
          (stepAfter (jsSlice S) (g (flushD (jsSlice S) a).1) ch).2) := by
    rw [processCharG_eq, ea]
  have hB : processCharG (jsSlice S) b ch =
      ({ (stepAfter (jsSlice S) (g (flushD (jsSlice S) b).1) ch).1 with
          position :=
            (stepAfter (jsSlice S) (g (flushD (jsSlice S) b).1) ch).1.position + 1 },
        (flushD (jsSlice S) b).2.1 ++
          (stepAfter (jsSlice S) (g (flushD (jsSlice S) b).1) ch).2) := by
    rw [processCharG_eq, eb]
  constructor
  · rw [hA, hB, hgs]
  · rw [hA, hB, hgs]
    dsimp only
    rw [(stepAfter_not_newline_facts (jsSlice S) (g (flushD (jsSlice S) b).1) ch
      hch).2.2.2]
    rw [List.append_nil, List.append_nil]
    exact hmerge

theorem noflush_bisim (S : List Nat) (a b : Core) (ch : Nat)
    (hpos : a.position = b.position) (hstk : a.stack = b.stack)
    (hble : b.start ≤ a.start)
    (hsp : a.start ≤ a.position) (hS : a.position ≤ S.length)
    (ga gb : Core)
    (hgpos : ga.position = a.position) (hgstart : ga.start = a.start)
    (hgstack : ga.stack = a.stack)
    (hgbpos : gb.position = b.position) (hgbstart : gb.start = b.start)
    (hgbstack : gb.stack = b.stack)
    (hgst : ga.state = gb.state) (hglock : ga.state.locked = false)
    (ea : stepSwitch (jsSlice S) a ch = (ga, []))
    (eb : stepSwitch (jsSlice S) b ch = (gb, [])) :
    Rrel (processCharG (jsSlice S) a ch).1 (processCharG (jsSlice S) b ch).1 ∧
    mergeApp (appOpt (jsSlice S b.start a.start) ++ (processCharG (jsSlice S) a ch).2) =
      mergeApp ((processCharG (jsSlice S) b ch).2 ++
        appOpt (jsSlice S (processCharG (jsSlice S) b ch).1.start
          (processCharG (jsSlice S) a ch).1.start)) := by
  have ht := tail_bisim S ga gb ch
    (by rw [hgpos, hgbpos, hpos]) (by rw [hgstack, hgbstack, hstk]) hgst
    (by rw [hgstart, hgbstart]; exact hble) hglock
    (by rw [hgstart, hgpos]; exact hsp) (by rw [hgpos]; exact hS)
  have hA : processCharG (jsSlice S) a ch =
      ({ (stepAfter (jsSlice S) ga ch).1 with
          position := (stepAfter (jsSlice S) ga ch).1.position + 1 },
        [] ++ (stepAfter (jsSlice S) ga ch).2) := by
    rw [processCharG_eq, ea]
  have hB : processCharG (jsSlice S) b ch =
      ({ (stepAfter (jsSlice S) gb ch).1 with
          position := (stepAfter (jsSlice S) gb ch).1.position + 1 },
        [] ++ (stepAfter (jsSlice S) gb ch).2) := by
    rw [processCharG_eq, eb]
  constructor
  · rw [hA, hB]
    exact Rrel_bump _ _ ht.1
  · rw [hA, hB]
    dsimp only
    rw [List.nil_append, List.nil_append, ← hgstart, ← hgbstart]
    exact ht.2

theorem chr_bisim (S : List Nat) (a b : Core) (ch : Nat) (hR : Rrel a b)
    (hIa : Inv a) (hS : a.position ≤ S.length) :
    Rrel (processCharG (jsSlice S) a ch).1 (processCharG (jsSlice S) b ch).1 ∧
    mergeApp (appOpt (jsSlice S b.start a.start) ++ (processCharG (jsSlice S) a ch).2) =
      mergeApp ((processCharG (jsSlice S) b ch).2 ++
        appOpt (jsSlice S (processCharG (jsSlice S) b ch).1.start
          (processCharG (jsSlice S) a ch).1.start)) := by
  by_cases hlk : a.state.locked = true
  · have hab := Rrel_eq_of_locked a b hR hlk
    subst hab
    refine ⟨Rrel_refl _, ?_⟩
    simp [jsSlice_refl, appOpt_nil]
  · have hl : a.state.locked = false := by
      cases h : a.state.locked
      · rfl
      · exact absurd h hlk
    obtain ⟨hpos, hstk, hst, hble, -⟩ := hR
    have hsp : a.start ≤ a.position := hIa.1
    have hbst : b.state = a.state := hst.symm
    cases hs : a.state.state with
    | SEQUENCE_HEADING =>
      exact absurd (hIa.2.1.mpr (Or.inl hs)) (by simp [hl])
    | SEQUENCE_HR =>
      exact absurd (hIa.2.1.mpr (Or.inr hs)) (by simp [hl])
    | CODE =>
      exact noflush_bisim S a b ch hpos hstk hble hsp hS a b rfl rfl rfl rfl rfl rfl
        hst hl (stepSwitch_code _ a ch hs)
        (stepSwitch_code _ b ch (by rw [hbst]; exact hs))
    | CODE_BLOCK =>
      exact noflush_bisim S a b ch hpos hstk hble hsp hS a b rfl rfl rfl rfl rfl rfl
        hst hl (stepSwitch_code_block _ a ch hs)
        (stepSwitch_code_block _ b ch (by rw [hbst]; exact hs))
    | SEQUENCE_MODIFIER =>
      by_cases hmod : isModifierChar ch = true
      · cases hms : a.state.modifierStack with
        | nil =>
          exact noflush_bisim S a b ch hpos hstk hble hsp hS a b rfl rfl rfl rfl rfl
            rfl hst hl (stepSwitch_modifier_cont_nil _ a ch hs hmod hms)
            (stepSwitch_modifier_cont_nil _ b ch (by rw [hbst]; exact hs) hmod
              (by rw [hbst]; exact hms))
        | cons last rest =>
          refine noflush_bisim S a b ch hpos hstk hble hsp hS
            { a with
                uncorfinmed_start := optAdd a.uncorfinmed_start 1,
                state := { a.state with modifierStack :=
                  (if last.count = 1 ∧ ch = last.char then
                    { last with count := last.count + 1 } :: rest
                  else
                    ModEntry.mk ch 1 none :: last :: rest) } }
            { b with
                uncorfinmed_start := optAdd b.uncorfinmed_start 1,
                state := { b.state with modifierStack :=
                  (if last.count = 1 ∧ ch = last.char then
                    { last with count := last.count + 1 } :: rest
                  else
                    ModEntry.mk ch 1 none :: last :: rest) } }
            rfl rfl rfl rfl rfl rfl (by dsimp only; rw [hst]) hl
            (stepSwitch_modifier_cont_cons _ a ch last rest hs hmod hms)
            (stepSwitch_modifier_cont_cons _ b ch last rest (by rw [hbst]; exact hs)
              hmod (by rw [hbst]; exact hms))
      · have hmf : isModifierChar ch = false := by
          cases h : isModifierChar ch
          · rfl
          · exact absurd h hmod
        refine noflush_bisim S a b ch hpos hstk hble hsp hS
          { a with state := { a.state with
              state := PState.NORMAL, locked := false,
              modifierStack := setLastEndPos a.state.modifierStack a.position } }
          { b with state := { b.state with
              state := PState.NORMAL, locked := false,
              modifierStack := setLastEndPos b.state.modifierStack b.position } }
          rfl rfl rfl rfl rfl rfl (by dsimp only; rw [hst, hpos]) rfl
          (stepSwitch_modifier_abort _ a ch hs hmf)
          (stepSwitch_modifier_abort _ b ch (by rw [hbst]; exact hs) hmf)
    | NORMAL =>
      by_cases hls : a.state.line_start = true
      · by_cases hH : ch = HASH
        · subst hH
          have hE := entry_bisim S a b HASH ⟨hpos, hstk, hst, hble,
              fun hc => absurd hc hlk⟩ hl hsp hS
            (fun x => { x with
                state := { x.state with
                  locked := true, state := PState.SEQUENCE_HEADING,
                  heading_count := 1 },
                uncorfinmed_start := some x.position })
            (fun x u => rfl) (by decide)
            (by rw [stepSwitch_normal_hash _ a hs hls])
            (by rw [stepSwitch_normal_hash _ b (by rw [hbst]; exact hs)
              (by rw [hbst]; exact hls)])
          refine ⟨by rw [hE.1]; exact Rrel_refl _, ?_⟩
          rw [hE.1, jsSlice_refl, appOpt_nil, List.append_nil]
          exact hE.2
        · by_cases hhr : ch = UNDERSCORE ∨ ch = ASTERISK ∨ ch = DASH
          · have hE := entry_bisim S a b ch ⟨hpos, hstk, hst, hble,
                fun hc => absurd hc hlk⟩ hl hsp hS
              (fun x => { x with
                  state := { x.state with
                    locked := true, state := PState.SEQUENCE_HR,
                    hr_char := some ch, hr_count := 1 },
                  uncorfinmed_start := some x.position })
              (fun x u => rfl)
              (by rcases hhr with h | h | h <;> (subst h; decide))
              (by rw [stepSwitch_normal_hr _ a ch hs hls hH hhr])
              (by rw [stepSwitch_normal_hr _ b ch (by rw [hbst]; exact hs)
                (by rw [hbst]; exact hls) hH hhr])
            refine ⟨by rw [hE.1]; exact Rrel_refl _, ?_⟩
            rw [hE.1, jsSlice_refl, appOpt_nil, List.append_nil]
            exact hE.2
          · exact noflush_bisim S a b ch hpos hstk hble hsp hS a b rfl rfl rfl rfl
              rfl rfl hst hl (stepSwitch_normal_skip1 _ a ch hs hls hH hhr)
              (stepSwitch_normal_skip1 _ b ch (by rw [hbst]; exact hs)
                (by rw [hbst]; exact hls) hH hhr)
      · have hls' : a.state.line_start = false := by
          cases h : a.state.line_start
          · rfl
          · exact absurd h hls
        by_cases hmod : isModifierChar ch = true
        · have hE := entry_bisim S a b ch ⟨hpos, hstk, hst, hble,
              fun hc => absurd hc hlk⟩ hl hsp hS
            (fun x => { x with
                state := { x.state with
                  state := PState.SEQUENCE_MODIFIER,
                  modifierStack := ModEntry.mk ch 1 none :: x.state.modifierStack },
                uncorfinmed_start := some (x.position + 1) })
            (fun x u => rfl) (isModifierChar_ne_newline ch hmod)
            (by rw [stepSwitch_normal_mod _ a ch hs hls' hmod])
            (by rw [stepSwitch_normal_mod _ b ch (by rw [hbst]; exact hs)
              (by rw [hbst]; exact hls') hmod])
          refine ⟨by rw [hE.1]; exact Rrel_refl _, ?_⟩
          rw [hE.1, jsSlice_refl, appOpt_nil, List.append_nil]
          exact hE.2
        · have hmf : isModifierChar ch = false := by
            cases h : isModifierChar ch
            · rfl
            · exact absurd h hmod
          by_cases hbt : ch = BACKTICK
          · subst hbt
            have hE := entry_bisim S a b BACKTICK ⟨hpos, hstk, hst, hble,
                fun hc => absurd hc hlk⟩ hl hsp hS
              (fun x => { x with
                  state := { x.state with state := PState.CODE },
                  uncorfinmed_start := some (x.position + 1) })
              (fun x u => rfl) (by decide)
              (by rw [stepSwitch_normal_code _ a BACKTICK hs hls' hmf rfl])
              (by rw [stepSwitch_normal_code _ b BACKTICK (by rw [hbst]; exact hs)
                (by rw [hbst]; exact hls') hmf rfl])
            refine ⟨by rw [hE.1]; exact Rrel_refl _, ?_⟩
            rw [hE.1, jsSlice_refl, appOpt_nil, List.append_nil]
            exact hE.2
          · exact noflush_bisim S a b ch hpos hstk hble hsp hS a b rfl rfl rfl rfl
              rfl rfl hst hl (stepSwitch_normal_skip2 _ a ch hs hls' hmf hbt)
              (stepSwitch_normal_skip2 _ b ch (by rw [hbst]; exact hs)
                (by rw [hbst]; exact hls') hmf hbt)

/-- The invariant at the point between the state switch and the position
increment of one loop iteration: the position is still the old one `p`, the
confirmed cursor is at most `p + 1`, the lock flag marks the two block
sequences, and in the heading sequence the unconfirmed cursor sits on the
current character. -/
def InvM (p : Nat) (c : Core) : Prop :=
  c.position = p ∧ c.start ≤ p + 1 ∧
  (c.state.locked = true ↔
    (c.state.state = PState.SEQUENCE_HEADING ∨ c.state.state = PState.SEQUENCE_HR)) ∧
  (c.state.state = PState.SEQUENCE_HEADING → c.uncorfinmed_start = some p)

theorem InvM_bump (p : Nat) (c : Core) (h : InvM p c) :
    Inv { c with position := c.position + 1 } := by
  obtain ⟨h0, h1, h2, h3⟩ := h
  refine ⟨?_, h2, fun hh => ⟨?_, ?_⟩⟩
  · show c.start ≤ c.position + 1
    omega
  · show c.uncorfinmed_start = some (c.position + 1 - 1)
    rw [h3 hh, h0]
    simp
  · show 1 ≤ c.position + 1
    omega

theorem stepSwitch_InvM (read : Nat → Nat → List Nat) (m : Core) (ch : Nat)
    (hI : Inv m) : InvM m.position (stepSwitch read m ch).1 := by
  obtain ⟨h1, h2, h3⟩ := hI
  cases hs : m.state.state with
  | NORMAL =>
    have hl : m.state.locked = false := by
      cases h : m.state.locked
      · rfl
      · rcases h2.mp h with hw | hw <;> (rw [hs] at hw; exact PState.noConfusion hw)
    by_cases hls : m.state.line_start = true
    · by_cases hH : ch = HASH
      · subst hH
        rw [stepSwitch_normal_hash read m hs hls]
        dsimp only
        rcases flushD_fst_cases read m with hf | hf <;> rw [hf]
        · exact ⟨rfl, by show m.start ≤ m.position + 1; omega, by simp,
            fun hh => rfl⟩
        · exact ⟨rfl, by show m.position ≤ m.position + 1; omega, by simp,
            fun hh => rfl⟩
      · by_cases hhr : ch = UNDERSCORE ∨ ch = ASTERISK ∨ ch = DASH
        · rw [stepSwitch_normal_hr read m ch hs hls hH hhr]
          dsimp only
          rcases flushD_fst_cases read m with hf | hf <;> rw [hf]
          · exact ⟨rfl, by show m.start ≤ m.position + 1; omega, by simp,
              fun hh => PState.noConfusion hh⟩
          · exact ⟨rfl, by show m.position ≤ m.position + 1; omega, by simp,
              fun hh => PState.noConfusion hh⟩
        · rw [stepSwitch_normal_skip1 read m ch hs hls hH hhr]
          exact ⟨rfl, by show m.start ≤ m.position + 1; omega, h2,
            fun hh => by rw [hs] at hh; exact PState.noConfusion hh⟩
    · have hls' : m.state.line_start = false := by
        cases h : m.state.line_start
        · rfl
        · exact absurd h hls
      by_cases hmod : isModifierChar ch = true
      · rw [stepSwitch_normal_mod read m ch hs hls' hmod]
        dsimp only
        rcases flushD_fst_cases read m with hf | hf <;> rw [hf]
        · exact ⟨rfl, by show m.start ≤ m.position + 1; omega, by simp [hl],
            fun hh => PState.noConfusion hh⟩
        · exact ⟨rfl, by show m.position ≤ m.position + 1; omega, by simp [hl],
            fun hh => PState.noConfusion hh⟩
      · have hmf : isModifierChar ch = false := by
          cases h : isModifierChar ch
          · rfl
          · exact absurd h hmod
        by_cases hbt : ch = BACKTICK
        · rw [stepSwitch_normal_code read m ch hs hls' hmf hbt]
          dsimp only
          rcases flushD_fst_cases read m with hf | hf <;> rw [hf]
          · exact ⟨rfl, by show m.start ≤ m.position + 1; omega, by simp [hl],
              fun hh => PState.noConfusion hh⟩
          · exact ⟨rfl, by show m.position ≤ m.position + 1; omega, by simp [hl],
              fun hh => PState.noConfusion hh⟩
        · rw [stepSwitch_normal_skip2 read m ch hs hls' hmf hbt]
          exact ⟨rfl, by show m.start ≤ m.position + 1; omega, h2,
            fun hh => by rw [hs] at hh; exact PState.noConfusion hh⟩
  | SEQUENCE_HEADING =>
    have hlk : m.state.locked = true := h2.mpr (Or.inl hs)
    obtain ⟨hu, hp1⟩ := h3 hs
    by_cases hH : ch = HASH
    · subst hH
      rw [stepSwitch_heading_continue read m hs]
      refine ⟨rfl, by show m.start ≤ m.position + 1; omega, ?_, fun hh => ?_⟩
      · exact h2
      · show optAdd m.uncorfinmed_start 1 = some m.position
        rw [hu]
        simp only [optAdd, Option.getD_some]
        exact congrArg some (by omega)
    · by_cases hsn : ch = SPACE ∨ ch = NEWLINE
      · rw [stepSwitch_heading_confirm read m ch hs hH hsn]
        refine ⟨rfl, ?_, by simp, fun hh => PState.noConfusion hh⟩
        show m.uncorfinmed_start.getD 0 + 2 ≤ m.position + 1
        rw [hu]
        simp only [Option.getD_some]
        omega
      · have hspc : ch ≠ SPACE := fun h => hsn (Or.inl h)
        have hnl : ch ≠ NEWLINE := fun h => hsn (Or.inr h)
        rw [stepSwitch_heading_abort read m ch hs hH hspc hnl]
        exact ⟨rfl, by show m.start ≤ m.position + 1; omega, by simp,
          fun hh => PState.noConfusion hh⟩
  | SEQUENCE_HR =>
    have hlk : m.state.locked = true := h2.mpr (Or.inr hs)
    by_cases hc : some ch = m.state.hr_char ∨ ch = SPACE
    · rw [stepSwitch_hr_continue read m ch hs hc]
      refine ⟨rfl, by show m.start ≤ m.position + 1; omega, ?_, fun hh => ?_⟩
      · exact h2
      · rw [hs] at hh
        exact PState.noConfusion hh
    · by_cases hfire : m.state.hr_count > 2 ∧ ch = NEWLINE
      · rw [stepSwitch_hr_confirm read m ch hs hc hfire]
        exact ⟨rfl, by show m.position ≤ m.position + 1; omega, by simp,
          fun hh => PState.noConfusion hh⟩
      · cases hhc : m.state.hr_char with
        | none =>
          rw [stepSwitch_hr_abort_none read m ch hs hc hhc hfire]
          exact ⟨rfl, by show m.start ≤ m.position + 1; omega, by simp,
            fun hh => PState.noConfusion hh⟩
        | some h0 =>
          by_cases hmod : isModifierChar h0 = true
          · rw [stepSwitch_hr_abort_modifier read m ch h0 hs hc hhc hmod hfire]
            dsimp only
            rcases flushD_fst_cases read
              { m with state :=
                  { m.state with state := PState.NORMAL, locked := false } } with
              hf | hf <;> rw [hf]
            · exact ⟨rfl, by show m.start ≤ m.position + 1; omega, by simp,
                fun hh => PState.noConfusion hh⟩
            · exact ⟨rfl, by show m.position ≤ m.position + 1; omega, by simp,
                fun hh => PState.noConfusion hh⟩
          · have hmf : isModifierChar h0 = false := by
              cases h : isModifierChar h0
              · rfl
              · exact absurd h hmod
            rw [stepSwitch_hr_abort_plain read m ch h0 hs hc hhc hmf hfire]
            exact ⟨rfl, by show m.start ≤ m.position + 1; omega, by simp,
              fun hh => PState.noConfusion hh⟩
  | SEQUENCE_MODIFIER =>
    have hl : m.state.locked = false := by
      cases h : m.state.locked
      · rfl
      · rcases h2.mp h with hw | hw <;> (rw [hs] at hw; exact PState.noConfusion hw)
    by_cases hmod : isModifierChar ch = true
    · cases hms : m.state.modifierStack with
      | nil =>
        rw [stepSwitch_modifier_cont_nil read m ch hs hmod hms]
        exact ⟨rfl, by show m.start ≤ m.position + 1; omega, h2,
          fun hh => by rw [hs] at hh; exact PState.noConfusion hh⟩
      | cons last rest =>
        rw [stepSwitch_modifier_cont_cons read m ch last rest hs hmod hms]
        exact ⟨rfl, by show m.start ≤ m.position + 1; omega, h2,
          fun hh => by rw [hs] at hh; exact PState.noConfusion hh⟩
    · have hmf : isModifierChar ch = false := by
        cases h : isModifierChar ch
        · rfl
        · exact absurd h hmod
      rw [stepSwitch_modifier_abort read m ch hs hmf]
      exact ⟨rfl, by show m.start ≤ m.position + 1; omega, by simp,
        fun hh => PState.noConfusion hh⟩
  | CODE =>
    rw [stepSwitch_code read m ch hs]
    exact ⟨rfl, by show m.start ≤ m.position + 1; omega, h2,
      fun hh => by rw [hs] at hh; exact PState.noConfusion hh⟩
  | CODE_BLOCK =>
    rw [stepSwitch_code_block read m ch hs]
    exact ⟨rfl, by show m.start ≤ m.position + 1; omega, h2,
      fun hh => by rw [hs] at hh; exact PState.noConfusion hh⟩

theorem stepAfter_InvM (read : Nat → Nat → List Nat) (p : Nat) (c : Core) (ch : Nat)
    (h : InvM p c) : InvM p (stepAfter read c ch).1 := by
  obtain ⟨h0, h1, h2, h3⟩ := h
  by_cases hn : ch = NEWLINE
  · subst hn
    by_cases hh : c.state.heading_count > 0
    · rw [stepAfter_newline_hcpos read c hh]
      dsimp only
      have hSe : (down (flushD read
          { c with state :=
            { c.state with line_start := true, modifierStack := [] } }).1).1.state =
          ({ c with state :=
            { c.state with line_start := true, modifierStack := [] } } : Core).state := by
        rw [down_fst_state, flushD_fst_state]
      refine ⟨?_, ?_, ?_, fun hhd => ?_⟩
      · show (down (flushD read
          { c with state :=
            { c.state with line_start := true, modifierStack := [] } }).1).1.position = p
        rw [down_fst_position, flushD_fst_position]
        exact h0
      · show (down (flushD read
          { c with state :=
            { c.state with line_start := true, modifierStack := [] } }).1).1.start ≤
          p + 1
        rw [down_fst_start]
        rcases flushD_fst_cases read
          { c with state :=
            { c.state with line_start := true, modifierStack := [] } } with hf | hf <;>
          rw [hf]
        · exact h1
        · show c.position ≤ p + 1
          omega
      · show ({ (down (flushD read
            { c with state :=
              { c.state with line_start := true, modifierStack := [] } }).1).1.state with
            heading_count := 0 } : MachineState).locked = true ↔ _
        rw [hSe]
        exact h2
      · rw [hSe] at hhd
        have hcs : c.state.state = PState.SEQUENCE_HEADING := hhd
        have hlk : ({ c with state :=
            { c.state with line_start := true, modifierStack := [] } } :
              Core).state.locked = true :=
          h2.mpr (Or.inl hcs)
        have hfl : flushD read
            { c with state :=
              { c.state with line_start := true, modifierStack := [] } } =
            ({ c with state :=
              { c.state with line_start := true, modifierStack := [] } }, [], false) :=
          flushG_of_locked read _ _ _ hlk
        show ({ (down (flushD read
            { c with state :=
              { c.state with line_start := true, modifierStack := [] } }).1).1 with
            state := _ } : Core).uncorfinmed_start = some p
        rw [hfl, down_fst_unc]
        exact h3 hcs
    · rw [stepAfter_newline_hc0 read c hh]
      exact ⟨h0, h1, h2, fun hhd => h3 hhd⟩
  · rw [stepAfter_of_not_newline read c ch hn]
    by_cases hls : c.state.line_start = true
    · rw [if_pos hls]
      exact ⟨h0, h1, h2, fun hhd => h3 hhd⟩
    · rw [if_neg hls]
      exact ⟨h0, h1, h2, h3⟩

theorem Inv_processCharG (read : Nat → Nat → List Nat) (m : Core) (ch : Nat)
    (hI : Inv m) : Inv (processCharG read m ch).1 := by
  rw [processCharG_eq]
  exact InvM_bump m.position _
    (stepAfter_InvM read m.position _ ch (stepSwitch_InvM read m ch hI))

theorem flA_step (S : List Nat) (a b : Core) (hR : Rrel a b)
    (hsp : a.start ≤ a.position) :
    Rrel (flushD (jsSlice S) a).1 b ∧
    (flushD (jsSlice S) a).1.position = a.position ∧
    mergeApp (appOpt (jsSlice S b.start a.start) ++ (flushD (jsSlice S) a).2.1) =
      mergeApp (appOpt (jsSlice S b.start (flushD (jsSlice S) a).1.start)) := by
  obtain ⟨hpos, hstk, hst, hble, hlck⟩ := hR
  by_cases hl : a.state.locked = true
  · have hfl : flushD (jsSlice S) a = (a, [], false) :=
      flushG_of_locked _ a _ _ hl
    rw [hfl]
    exact ⟨⟨hpos, hstk, hst, hble, hlck⟩, rfl, by simp⟩
  · have hl' : a.state.locked = false := by
      cases h : a.state.locked
      · rfl
      · exact absurd h hl
    by_cases he : jsSlice S a.start a.position = []
    · have hfl : flushD (jsSlice S) a = (a, [], false) := flushG_of_empty _ a _ _ he
      rw [hfl]
      exact ⟨⟨hpos, hstk, hst, hble, hlck⟩, rfl, by simp⟩
    · have hfl : flushD (jsSlice S) a =
          ({ a with start := a.position, uncorfinmed_start := none },
            [Cmd.appendText (jsSlice S a.start a.position)], true) :=
        flushG_of_fire _ a _ _ hl' he
      rw [hfl]
      refine ⟨⟨hpos, hstk, hst, ?_, fun hc =>
        absurd (show a.state.locked = true from hc) (by simp [hl'])⟩, rfl, ?_⟩
      · show b.start ≤ a.position
        omega
      · have hcc := jsSlice_concat S b.start a.start a.position hble hsp
        have hDne : (jsSlice S b.start a.position).length ≠ 0 := by
          rw [← hcc, List.length_append]
          intro h00
          exact he (List.eq_nil_of_length_eq_zero (by omega))
        have hAr : appOpt (jsSlice S b.start a.position) =
            [Cmd.appendText (jsSlice S b.start a.position)] := by
          unfold appOpt
          rw [if_neg hDne]
        show mergeApp (appOpt (jsSlice S b.start a.start) ++
            [Cmd.appendText (jsSlice S a.start a.position)]) =
          mergeApp (appOpt (jsSlice S b.start a.position))
        rw [hAr, mergeApp_appOpt_pair, hcc]

/-- Erase the write-boundary flushes from an operation stream, keeping the
character steps. -/
def delFl : List SOp → List SOp
  | [] => []
  | SOp.fl :: rest => delFl rest
  | op :: rest => op :: delFl rest

/-- The number of character steps in an operation stream. -/
def numChr : List SOp → Nat
  | [] => 0
  | SOp.chr _ :: rest => numChr rest + 1
  | _ :: rest => numChr rest

theorem delFl_chr (c : Nat) (rest : List SOp) :
    delFl (SOp.chr c :: rest) = SOp.chr c :: delFl rest := rfl

theorem chrOps_cons (c : Nat) (cs : List Nat) :
    chrOps (c :: cs) = SOp.chr c :: chrOps cs := rfl

theorem runOps_finfree_position (S : List Nat) :
    ∀ (ops : List SOp) (m : Core), SOp.fin ∉ ops →
      (runOps S m ops).1.position = m.position + numChr ops := by
  intro ops
  induction ops with
  | nil =>
    intro m _
    rfl
  | cons op rest ih =>
    intro m hnf
    have hnf' : SOp.fin ∉ rest := fun h => hnf (List.mem_cons_of_mem _ h)
    rw [runOps_cons]
    dsimp only
    cases op with
    | chr c =>
      rw [ih _ hnf']
      dsimp only [applyOp]
      rw [processCharG_fst_position]
      show m.position + 1 + numChr rest = m.position + (numChr rest + 1)
      omega
    | fl =>
      rw [ih _ hnf']
      dsimp only [applyOp]
      rw [flushD_fst_position]
      rfl
    | fin => exact absurd (List.mem_cons_self _ _) hnf

theorem bisim_main (S : List Nat) :
    ∀ (ops : List SOp) (cs : List Nat) (a b : Core),
      SOp.fin ∉ ops → delFl ops = chrOps cs →
      Rrel a b → Inv a → Inv b →
      a.position + numChr ops ≤ S.length →
      Rrel (runOps S a ops).1 (runOps S b (chrOps cs)).1 ∧
      Inv (runOps S a ops).1 ∧ Inv (runOps S b (chrOps cs)).1 ∧
      mergeApp (appOpt (jsSlice S b.start a.start) ++ (runOps S a ops).2) =
        mergeApp ((runOps S b (chrOps cs)).2 ++
          appOpt (jsSlice S (runOps S b (chrOps cs)).1.start
            (runOps S a ops).1.start)) := by
  intro ops
  induction ops with
  | nil =>
    intro cs a b hnf hdel hR hIa hIb hlen
    have hcs : cs = [] := by
      cases cs with
      | nil => rfl
      | cons c0 cs' =>
        rw [chrOps_cons] at hdel
        exact absurd hdel (by simp [delFl])
    subst hcs
    refine ⟨hR, hIa, hIb, ?_⟩
    show mergeApp (appOpt (jsSlice S b.start a.start) ++ []) =
      mergeApp ([] ++ appOpt (jsSlice S b.start a.start))
    simp
  | cons op rest ih =>
    intro cs a b hnf hdel hR hIa hIb hlen
    have hnf' : SOp.fin ∉ rest := fun h => hnf (List.mem_cons_of_mem _ h)
    cases op with
    | fin => exact absurd (List.mem_cons_self _ _) hnf
    | fl =>
      have hdel' : delFl rest = chrOps cs := hdel
      have hfa := flA_step S a b hR hIa.1
      have hIa' : Inv (flushD (jsSlice S) a).1 := Inv_flushD _ a hIa
      have hlen0 : a.position + numChr rest ≤ S.length := hlen
      have hlen' : (flushD (jsSlice S) a).1.position + numChr rest ≤ S.length := by
        rw [hfa.2.1]
        exact hlen0
      have hih := ih cs (flushD (jsSlice S) a).1 b hnf' hdel' hfa.1 hIa' hIb hlen'
      rw [runOps_cons]
      dsimp only [applyOp]
      refine ⟨hih.1, hih.2.1, hih.2.2.1, ?_⟩
      rw [← List.append_assoc]
      exact (mergeApp_congr_left _ _ _ hfa.2.2).trans hih.2.2.2
    | chr c =>
      cases cs with
      | nil =>
        rw [delFl_chr] at hdel
        exact absurd hdel (by simp [chrOps])
      | cons c0 cs' =>
        rw [delFl_chr, chrOps_cons] at hdel
        injection hdel with hd1 hd2
        have hc : c = c0 := by injection hd1
        subst hc
        have hlen0 : a.position + (numChr rest + 1) ≤ S.length := hlen
        have hstep := chr_bisim S a b c hR hIa (by omega)
        have hIa' := Inv_processCharG (jsSlice S) a c hIa
        have hIb' := Inv_processCharG (jsSlice S) b c hIb
        have hlen' :
            (processCharG (jsSlice S) a c).1.position + numChr rest ≤ S.length := by
          rw [processCharG_fst_position]
          omega
        have hih := ih cs' (processCharG (jsSlice S) a c).1
          (processCharG (jsSlice S) b c).1 hnf' hd2 hstep.1 hIa' hIb' hlen'
        rw [chrOps_cons, runOps_cons, runOps_cons]
        dsimp only [applyOp]
        refine ⟨hih.1, hih.2.1, hih.2.2.1, ?_⟩
        rw [← List.append_assoc]
        refine (mergeApp_congr_left _ _ _ hstep.2).trans ?_
        rw [List.append_assoc]
        refine (mergeApp_congr_right _ _ _ hih.2.2.2).trans ?_
        rw [List.append_assoc]

theorem delFl_fl (rest : List SOp) : delFl (SOp.fl :: rest) = delFl rest := rfl

theorem delFl_fin (rest : List SOp) :
    delFl (SOp.fin :: rest) = SOp.fin :: delFl rest := rfl

theorem delFl_append : ∀ (xs ys : List SOp),
    delFl (xs ++ ys) = delFl xs ++ delFl ys := by
  intro xs
  induction xs with
  | nil => intro ys; rfl
  | cons op xs ih =>
    intro ys
    cases op with
    | chr c => rw [List.cons_append, delFl_chr, delFl_chr, ih, List.cons_append]
    | fl => rw [List.cons_append, delFl_fl, delFl_fl, ih]
    | fin => rw [List.cons_append, delFl_fin, delFl_fin, ih, List.cons_append]

theorem delFl_chrOps : ∀ (cs : List Nat), delFl (chrOps cs) = chrOps cs := by
  intro cs
  induction cs with
  | nil => rfl
  | cons c cs ih => rw [chrOps_cons, delFl_chr, ih]

theorem chrOps_append (xs ys : List Nat) :
    chrOps (xs ++ ys) = chrOps xs ++ chrOps ys := by
  unfold chrOps
  rw [List.map_append]

theorem delFl_opsOfPartsNF : ∀ (parts : List (List Nat)),
    delFl (opsOfPartsNF parts) = chrOps (List.flatten parts) := by
  intro parts
  induction parts with
  | nil => rfl
  | cons p parts ih =>
    rw [opsOfPartsNF_cons, delFl_append, delFl_append, delFl_chrOps, ih,
      show delFl [SOp.fl] = [] from rfl, List.append_nil, List.flatten_cons,
      chrOps_append]

theorem numChr_append : ∀ (xs ys : List SOp),
    numChr (xs ++ ys) = numChr xs + numChr ys := by
  intro xs
  induction xs with
  | nil =>
    intro ys
    show numChr ys = 0 + numChr ys
    omega
  | cons op xs ih =>
    intro ys
    cases op with
    | chr c =>
      show numChr (xs ++ ys) + 1 = numChr xs + 1 + numChr ys
      rw [ih]
      omega
    | fl =>
      show numChr (xs ++ ys) = numChr xs + numChr ys
      exact ih ys
    | fin =>
      show numChr (xs ++ ys) = numChr xs + numChr ys
      exact ih ys

theorem numChr_chrOps : ∀ (cs : List Nat), numChr (chrOps cs) = cs.length := by
  intro cs
  induction cs with
  | nil => rfl
  | cons c cs ih =>
    show numChr (chrOps cs) + 1 = cs.length + 1
    rw [ih]

theorem numChr_opsOfPartsNF : ∀ (parts : List (List Nat)),
    numChr (opsOfPartsNF parts) = (List.flatten parts).length := by
  intro parts
  induction parts with
  | nil => rfl
  | cons p parts ih =>
    rw [opsOfPartsNF_cons, numChr_append, numChr_append, numChr_chrOps, ih,
      List.flatten_cons, List.length_append,
      show numChr [SOp.fl] = 0 from rfl]
    omega

theorem opsOfPartsNF_finfree : ∀ (parts : List (List Nat)),
    SOp.fin ∉ opsOfPartsNF parts := by
  intro parts
  induction parts with
  | nil => simp [opsOfPartsNF]
  | cons p parts ih =>
    intro h
    rw [opsOfPartsNF_cons] at h
    rcases List.mem_append.mp h with h | h
    · rcases List.mem_append.mp h with h | h
      · obtain ⟨c, _, heq⟩ := List.mem_map.mp h
        exact SOp.noConfusion heq
      · rw [List.mem_singleton] at h
        exact SOp.noConfusion h
    · exact ih h

theorem opsOfPartsNF_ends_fl : ∀ (parts : List (List Nat)), parts ≠ [] →
    ∃ Z, opsOfPartsNF parts = Z ++ [SOp.fl] := by
  intro parts
  induction parts with
  | nil => intro h; exact absurd rfl h
  | cons p rest ih =>
    intro _
    by_cases hr : rest = []
    · subst hr
      exact ⟨chrOps p, by
        rw [opsOfPartsNF_cons, show opsOfPartsNF [] = [] from rfl, List.append_nil]⟩
    · obtain ⟨Z, hZ⟩ := ih hr
      exact ⟨(chrOps p ++ [SOp.fl]) ++ Z, by
        rw [opsOfPartsNF_cons, hZ]
        simp [List.append_assoc]⟩

theorem flushD_post (S : List Nat) (x : Core) :
    (flushD (jsSlice S) x).1.state.locked = true ∨
      jsSlice S (flushD (jsSlice S) x).1.start (flushD (jsSlice S) x).1.position =
        [] := by
  by_cases hl : x.state.locked = true
  · left
    rw [flushD_fst_state]
    exact hl
  · right
    have hl' : x.state.locked = false := by
      cases h : x.state.locked
      · rfl
      · exact absurd h hl
    by_cases he : jsSlice S x.start x.position = []
    · have hfl : flushD (jsSlice S) x = (x, [], false) :=
        flushG_of_empty _ x _ _ he
      rw [hfl]
      exact he
    · have hfl : flushD (jsSlice S) x =
          ({ x with start := x.position, uncorfinmed_start := none },
            [Cmd.appendText (jsSlice S x.start x.position)], true) :=
        flushG_of_fire _ x _ _ hl' he
      rw [hfl]
      exact jsSlice_refl S x.position

theorem Inv_initCore : Inv initCore :=
  ⟨le_rfl, by simp [initCore], fun hh => PState.noConfusion hh⟩

theorem end_bisim (S : List Nat) (a b : Core) (hR : Rrel a b) (hIa : Inv a)
    (hfl : a.state.locked = true ∨ jsSlice S a.start a.position = []) :
    mergeApp (appOpt (jsSlice S b.start a.start) ++ (runOps S a [SOp.fin]).2) =
      mergeApp ((runOps S b [SOp.fl, SOp.fin]).2) := by
  obtain ⟨hpos, hstk, hst, hble, hlck⟩ := hR
  by_cases hl : a.state.locked = true
  · have hab := Rrel_eq_of_locked a b ⟨hpos, hstk, hst, hble, hlck⟩ hl
    subst hab
    have hflb : flushD (jsSlice S) a = (a, [], false) :=
      flushG_of_locked _ a _ _ hl
    show mergeApp (appOpt (jsSlice S a.start a.start) ++
        ((applyOp S a SOp.fin).2 ++ [])) =
      mergeApp ((applyOp S a SOp.fl).2 ++
        ((applyOp S (applyOp S a SOp.fl).1 SOp.fin).2 ++ []))
    dsimp only [applyOp]
    rw [hflb, jsSlice_refl, appOpt_nil]
  · have hl' : a.state.locked = false := by
      cases h : a.state.locked
      · rfl
      · exact absurd h hl
    have he : jsSlice S a.start a.position = [] := by
      rcases hfl with h | h
      · exact absurd h hl
      · exact h
    have hlb : b.state.locked = false := by rw [← hst]; exact hl'
    have hbread : jsSlice S b.start b.position = jsSlice S b.start a.start := by
      rw [← hpos, ← jsSlice_concat S b.start a.start a.position hble hIa.1, he,
        List.append_nil]
    have hfina : (applyOp S a SOp.fin).2 = [] := by
      dsimp only [applyOp]
      rw [if_neg (by simp [hl'])]
    by_cases hd : jsSlice S b.start a.start = []
    · have hflb : flushD (jsSlice S) b = (b, [], false) :=
        flushG_of_empty _ b _ _ (by rw [hbread]; exact hd)
      show mergeApp (appOpt (jsSlice S b.start a.start) ++
          ((applyOp S a SOp.fin).2 ++ [])) =
        mergeApp ((applyOp S b SOp.fl).2 ++
          ((applyOp S (applyOp S b SOp.fl).1 SOp.fin).2 ++ []))
      rw [hfina, hd, appOpt_nil]
      dsimp only [applyOp]
      rw [hflb]
      dsimp only
      rw [if_neg (by simp [hlb])]
    · have hflb : flushD (jsSlice S) b =
          ({ b with start := b.position, uncorfinmed_start := none },
            [Cmd.appendText (jsSlice S b.start b.position)], true) :=
        flushG_of_fire _ b _ _ hlb (by rw [hbread]; exact hd)
      show mergeApp (appOpt (jsSlice S b.start a.start) ++
          ((applyOp S a SOp.fin).2 ++ [])) =
        mergeApp ((applyOp S b SOp.fl).2 ++
          ((applyOp S (applyOp S b SOp.fl).1 SOp.fin).2 ++ []))
      rw [hfina]
      dsimp only [applyOp]
      rw [hflb]
      dsimp only
      rw [if_neg (by simp [hlb])]
      have hAr : appOpt (jsSlice S b.start a.start) =
          [Cmd.appendText (jsSlice S b.start a.start)] := by
        unfold appOpt
        rw [if_neg (by simp [hd])]
      rw [hbread, hAr]

/-- C1 (counterexample): the claim as stated — the same final sequence of
output commands for every partition — is false: writing `"ab"` as one
fragment emits the single command `appendText "ab"`, while writing `"a"`
then `"b"` emits `appendText "a"` followed by `appendText "b"`; the two
command sequences differ (the rendered text is the same, but the claim
quantifies over the command trace). -/
theorem c1_counterexample :
    runDoc [[97], [98]] ≠ runDoc [[97, 98]] ∧
    runDoc [[97], [98]] = [Cmd.appendText [97], Cmd.appendText [98]] ∧
    runDoc [[97, 98]] = [Cmd.appendText [97, 98]] := by
  decide

/-- C1 (amended): streaming invariance holds up to coalescing adjacent text
appends: for every string `S` and every non-empty partition of `S` into
fragments, feeding the fragments to `write` in order and calling `end`
produces the same final sequence of output commands as feeding `S` as a
single fragment, after merging adjacent `appendText` commands (which target
the same node); the structural commands and their interleaving with the text
coincide exactly. -/
theorem c1_streaming_invariance (parts : List (List Nat)) (hne : parts ≠ []) :
    mergeApp (runDoc parts) = mergeApp (runDoc [List.flatten parts]) := by
  rw [runDoc_eq_runOps, runDoc_eq_runOps]
  have hflat : List.flatten [List.flatten parts] = List.flatten parts := by simp
  rw [hflat]
  rw [opsOfParts_eq, opsOfParts_eq]
  have hBops : opsOfPartsNF [List.flatten parts] =
      chrOps (List.flatten parts) ++ [SOp.fl] := by
    rw [opsOfPartsNF_cons, show opsOfPartsNF ([] : List (List Nat)) = [] from rfl,
      List.append_nil]
  rw [hBops]
  have hassoc : (chrOps (List.flatten parts) ++ [SOp.fl]) ++ [SOp.fin] =
      chrOps (List.flatten parts) ++ [SOp.fl, SOp.fin] := by simp
  rw [hassoc]
  rw [runOps_append, runOps_append]
  dsimp only
  have hm := bisim_main (List.flatten parts) (opsOfPartsNF parts)
    (List.flatten parts) initCore initCore (opsOfPartsNF_finfree parts)
    (delFl_opsOfPartsNF parts) (Rrel_refl _) Inv_initCore Inv_initCore
    (by rw [numChr_opsOfPartsNF]; simp [initCore])
  obtain ⟨Z, hZ⟩ := opsOfPartsNF_ends_fl parts hne
  have haf : (runOps (List.flatten parts) initCore (opsOfPartsNF parts)).1 =
      (flushD (jsSlice (List.flatten parts))
        (runOps (List.flatten parts) initCore Z).1).1 := by
    rw [hZ, runOps_append]
    simp [runOps_cons, runOps_nil, applyOp]
  have hfld :
      (runOps (List.flatten parts) initCore
        (opsOfPartsNF parts)).1.state.locked = true ∨
      jsSlice (List.flatten parts)
        (runOps (List.flatten parts) initCore (opsOfPartsNF parts)).1.start
        (runOps (List.flatten parts) initCore (opsOfPartsNF parts)).1.position =
        [] := by
    rw [haf]
    exact flushD_post _ _
  have hend := end_bisim (List.flatten parts)
    (runOps (List.flatten parts) initCore (opsOfPartsNF parts)).1
    (runOps (List.flatten parts) initCore (chrOps (List.flatten parts))).1
    hm.1 hm.2.1 hfld
  have hT :
      mergeApp ((runOps (List.flatten parts) initCore (opsOfPartsNF parts)).2) =
      mergeApp
        ((runOps (List.flatten parts) initCore (chrOps (List.flatten parts))).2 ++
          appOpt (jsSlice (List.flatten parts)
            (runOps (List.flatten parts) initCore
              (chrOps (List.flatten parts))).1.start
            (runOps (List.flatten parts) initCore
              (opsOfPartsNF parts)).1.start)) := by
    have h := hm.2.2.2
    rw [jsSlice_refl, appOpt_nil, List.nil_append] at h
    exact h
  refine (mergeApp_congr_left _ _ _ hT).trans ?_
  rw [List.append_assoc]
  exact mergeApp_congr_right _ _ _ hend

theorem c1_streaming_invariance_witness :
    ([[97], [98]] : List (List Nat)) ≠ [] ∧
      mergeApp (runDoc [[97], [98]]) =
        mergeApp (runDoc [List.flatten [[97], [98]]]) :=
  ⟨by decide, c1_streaming_invariance [[97], [98]] (by decide)⟩

end LWMD
